import Mathlib

/-!
Verification of the snapshot engine in `chain/store/snapshot.go` (package `store`):
`ChainStore.Export`, `ChainStore.Import`, `ChainStore.WalkSnapshot` and `recurseLinks`.

The Go code is embedded shallowly:

* a CID becomes `ContentId`, keeping exactly the observable pieces the code
  inspects (`Prefix().MhType == mh.IDENTITY`, `Prefix().Codec`), plus an abstract
  body distinguishing different identifiers;
* stored bytes become `StoredObj`: the two ways the code interprets fetched bytes
  (`BlockHeader.UnmarshalCBOR` and `cbg.ScanForLinks`) are carried as fields, since
  both decodings are deterministic functions of the bytes;
* the two blockstores become partial maps `ContentId → Option StoredObj`;
* the `cid.Set`s `seen` and `walked` become `Finset ContentId`;
* the mutually recursive walk is given a fuel parameter; running out of fuel is a
  distinguished error, so any successful run is fuel-independent;
* the output callback `cb` and the calls into the recursive DAG expander are the
  observables of `WalkSnapshot`; the embedding records them in an event trace
  (`WalkEvent`), in program order, instead of threading an opaque callback.

The telemetry in the Go source (`currentMinHeight` tracking and `log.Infow`) has no
observable effect on the walk and is not modelled; likewise the `ts == nil`
fallback to `GetHeaviestTipSet` (every property below supplies a tip-set).
-/

namespace Snapshot

/-- Codec tag of a CID prefix: the code only distinguishes `cid.Raw`,
`cid.DagCBOR` and everything else (`snapshot.go:204-208`, `snapshot.go:237`). -/
inductive Codec
  | raw
  | dagCBOR
  | other
deriving DecidableEq, Repr

/-- A content identifier, keeping the fields the snapshot code inspects:
whether the multihash is the identity hash (`Prefix().MhType == mh.IDENTITY`) and
the codec tag. `body` abstracts the rest of the identifier so that distinct CIDs
with equal flags exist. -/
structure ContentId where
  body : Nat
  mhIdentity : Bool
  codec : Codec
deriving DecidableEq, Repr

/-- Block header, as read by the walker (`types.BlockHeader`): height
(`abi.ChainEpoch`, an `int64`, hence `Int`), parents, the message-DAG root,
the parent state root and the parent message-receipts root. -/
structure BlockHeader where
  height : Int
  parents : List ContentId
  messages : ContentId
  parentStateRoot : ContentId
  parentMessageReceipts : ContentId
deriving DecidableEq, Repr

/-- Stored bytes, abstracted to the two deterministic decodings the code applies
to them: `headerDecode` is the result of `BlockHeader.UnmarshalCBOR`
(`none` when the bytes do not decode as a header), `links` are the CIDs
`cbg.ScanForLinks` finds before any malformed byte, and `scanMalformed` records
whether malformed data follows those links. -/
structure StoredObj where
  headerDecode : Option BlockHeader
  links : List ContentId
  scanMalformed : Bool
deriving DecidableEq, Repr

/-- A blockstore is a partial map from identifiers to stored objects
(`get(id) -> bytes | NotFound`). -/
abbrev Blockstore := ContentId → Option StoredObj

/-- Errors of the walk, mirroring the `xerrors` wrappers in `snapshot.go`;
`outOfFuel` is the extra error of the embedding marking exhausted fuel. -/
inductive SnapErr
  | objectNotFound (c : ContentId)
  | malformedObject (c : ContentId)
  | malformedHeader (c : ContentId)
  | outOfFuel
deriving DecidableEq, Repr

/-- Modelled from the spec: `cbg.ScanForLinks` is not part of the repository
sources (it lives in the external `whyrusleeping/cbor-gen` package), so the Link
Scanner is modelled from spec section 4.1: it yields the links found before any
malformed byte, does not fail on malformed trailing data if valid links were
already found (partial results), and reports a decode error with zero links
found as a malformed-object error (`none`). -/
def scanForLinks (o : StoredObj) : Option (List ContentId) :=
  if o.scanMalformed && o.links.isEmpty then none else some o.links

/-- The fold over the links the scan yields (the `ScanForLinks` callback,
`snapshot.go:247-264`): already-walked links are skipped (`walked.Visit`), a
fresh link is marked walked, appended to the accumulator, and expanded through
`next` (the recursive expansion one level deeper); a child error aborts (the Go
callback latches it in `rerr` and the call returns it). -/
def recurseChildren
    (next : Finset ContentId → ContentId → List ContentId →
      Except SnapErr (List ContentId × Finset ContentId))
    (walked : Finset ContentId) (links : List ContentId) (inAcc : List ContentId) :
    Except SnapErr (List ContentId × Finset ContentId) :=
  match links with
  | [] => .ok (inAcc, walked)
  | c :: rest =>
    if c ∈ walked then recurseChildren next walked rest inAcc
    else
      match next (insert c walked) c (inAcc ++ [c]) with
      | .error e => .error e
      | .ok (in1, walked1) => recurseChildren next walked1 rest in1

/-- One level of `recurseLinks` (`snapshot.go:236-270`): non-dagcbor roots are
returned as-is without a fetch; otherwise the object is fetched, scanned for
links, and the links are folded with `next` as the one-level-deeper expansion. -/
def recurseLinksStep (bs : Blockstore)
    (next : Finset ContentId → ContentId → List ContentId →
      Except SnapErr (List ContentId × Finset ContentId))
    (walked : Finset ContentId) (root : ContentId) (inAcc : List ContentId) :
    Except SnapErr (List ContentId × Finset ContentId) :=
  if root.codec ≠ Codec.dagCBOR then .ok (inAcc, walked)
  else
    match bs root with
    | none => .error (.objectNotFound root)
    | some o =>
      match scanForLinks o with
      | none => .error (.malformedObject root)
      | some links => recurseChildren next walked links inAcc

/-- Embedding of `recurseLinks` (`snapshot.go:236-270`), tied by fuel: the Go
code recurses relying on the walked set and DAG acyclicity for termination; the
embedding bounds the nesting depth by `fuel`, reporting the distinguished
`outOfFuel` error when a link would have to be expanded below depth zero, so any
run that does not report `outOfFuel` is fuel-independent. -/
def recurseLinks (bs : Blockstore) : Nat → Finset ContentId → ContentId →
    List ContentId → Except SnapErr (List ContentId × Finset ContentId)
  | 0 => recurseLinksStep bs (fun _ _ _ => .error .outOfFuel)
  | fuel + 1 => recurseLinksStep bs (recurseLinks bs fuel)

/-- The dedup-guarded application of the recursive DAG expander, the pattern used
at both call sites of `recurseLinks` (`snapshot.go:158-164` and
`snapshot.go:179-186`): `if walked.Visit(root) { recurseLinks(bs, walked, root,
[root]) }`. Matches the spec's expander contract (section 4.2): an
already-walked root expands to the empty sequence, otherwise the root is marked
walked and the expansion starts with the root itself. -/
def expandRoot (bs : Blockstore) (fuel : Nat) (walked : Finset ContentId)
    (root : ContentId) : Except SnapErr (List ContentId × Finset ContentId) :=
  if root ∈ walked then .ok ([], walked)
  else recurseLinks bs fuel (insert root walked) root [root]

/-- Per-walk mutable state: the `seen` and `walked` CID sets
(`snapshot.go:124-125`). -/
structure WalkState where
  seen : Finset ContentId
  walked : Finset ContentId

/-- Observable actions of one walk, in program order: `cbHeader c` is the
callback invoked on a dequeued block id (`snapshot.go:135`), `cbOut c` is the
callback invoked from the filtered out-loop (`snapshot.go:210`), `expandMsgs`
and `expandState` mark the two applications of the dedup-guarded recursive DAG
expander (`snapshot.go:158` and `snapshot.go:179`), and `receiptLeaf` marks the
dedup-guarded inclusion of the receipts root as a leaf (`snapshot.go:188`). -/
inductive WalkEvent
  | cbHeader (c : ContentId)
  | cbOut (c : ContentId)
  | expandMsgs (root : ContentId)
  | expandState (root : ContentId)
  | receiptLeaf (root : ContentId)
deriving DecidableEq, Repr

/-- Identifier passed to the output callback by an event, if any. -/
def WalkEvent.cbCid : WalkEvent → Option ContentId
  | .cbHeader c => some c
  | .cbOut c => some c
  | _ => none

/-- The sequence of identifiers handed to the output callback, in order. -/
def emittedCids (evs : List WalkEvent) : List ContentId :=
  evs.filterMap WalkEvent.cbCid

/-- Codec filter of the out-loop (`snapshot.go:204-208`): only `cid.Raw` and
`cid.DagCBOR` pass. -/
def codecOk (c : ContentId) : Bool :=
  c.codec == Codec.raw || c.codec == Codec.dagCBOR

/-- The emission loop over `out` (`snapshot.go:193-215`): each id is added to
`seen` on first sight (`seen.Visit`); identity-hash ids and ids with a codec
outside raw/dagcbor are then dropped without a callback; the rest are passed to
the callback. Returns the grown seen set and the `cbOut` events in order. -/
def emitLoop (seen : Finset ContentId) (out : List ContentId) :
    Finset ContentId × List WalkEvent :=
  match out with
  | [] => (seen, [])
  | c :: rest =>
    if c ∈ seen then emitLoop seen rest
    else
      let seen1 := insert c seen
      if c.mhIdentity then emitLoop seen1 rest
      else if codecOk c then
        let r := emitLoop seen1 rest
        (r.1, WalkEvent.cbOut c :: r.2)
      else emitLoop seen1 rest

/-- Result of one `walkChain` call: the updated state, the block ids appended to
the frontier (`blocksToWalk`), the events of this step in program order, and the
error, if the step aborted the walk. -/
structure StepResult where
  st : WalkState
  enqueue : List ContentId
  events : List WalkEvent
  err : Option SnapErr

/-- The message-inclusion step (`snapshot.go:156-165`): when `!skipOldMsgs ||
height > startHeight - inclRecentRoots`, apply the dedup-guarded expander to the
message-DAG root over the chain blockstore; otherwise do nothing. Returns the
events of the step and the collected ids with the updated walked set. -/
def messagesStep (chainBs : Blockstore) (startHeight inclRecentRoots : Int)
    (skipOldMsgs : Bool) (fuel : Nat) (walked : Finset ContentId)
    (b : BlockHeader) :
    List WalkEvent × Except SnapErr (List ContentId × Finset ContentId) :=
  if !skipOldMsgs || decide (b.height > startHeight - inclRecentRoots) then
    ([.expandMsgs b.messages], expandRoot chainBs fuel walked b.messages)
  else ([], .ok ([], walked))

/-- The parent step (`snapshot.go:167-174`): blocks of positive height enqueue
their parents for further walking; a height-zero (or lower) block instead
appends its parents to the leaf objects to emit. Returns `(out ids, enqueued
block ids)`. -/
def parentsStep (b : BlockHeader) (cids : List ContentId) :
    List ContentId × List ContentId :=
  if b.height > 0 then (cids, b.parents) else (cids ++ b.parents, [])

/-- The state-inclusion step (`snapshot.go:178-191`): when `height == 0 ||
height > startHeight - inclRecentRoots`, apply the dedup-guarded expander to the
parent state root over the state blockstore and, unless receipts are skipped,
include the receipts root as a dedup-guarded single leaf. -/
def stateStep (stateBs : Blockstore) (startHeight inclRecentRoots : Int)
    (skipMsgReceipts : Bool) (fuel : Nat) (walked : Finset ContentId)
    (b : BlockHeader) :
    List WalkEvent × Except SnapErr (List ContentId × Finset ContentId) :=
  if decide (b.height = 0) || decide (b.height > startHeight - inclRecentRoots) then
    match expandRoot stateBs fuel walked b.parentStateRoot with
    | .error e => ([.expandState b.parentStateRoot], .error e)
    | .ok (scids, walked2) =>
      if !skipMsgReceipts then
        if b.parentMessageReceipts ∈ walked2 then
          ([.expandState b.parentStateRoot, .receiptLeaf b.parentMessageReceipts],
           .ok (scids, walked2))
        else
          ([.expandState b.parentStateRoot, .receiptLeaf b.parentMessageReceipts],
           .ok (scids ++ [b.parentMessageReceipts],
                insert b.parentMessageReceipts walked2))
      else ([.expandState b.parentStateRoot], .ok (scids, walked2))
  else ([], .ok ([], walked))

/-- Embedding of the `walkChain` closure (`snapshot.go:130-218`): skip if seen,
else emit the block id, fetch and decode the header, expand the message DAG when
`!skipOldMsgs || height > startHeight - inclRecentRoots`, enqueue parents when
`height > 0` (else treat them as leaf objects), expand the state DAG and
optionally include the receipts root when `height == 0 || height > startHeight -
inclRecentRoots`, and pass the collected ids through the filtered emission loop.
On an error the state reached so far and the events already performed are
returned together with the error. -/
def walkChain (chainBs stateBs : Blockstore) (startHeight inclRecentRoots : Int)
    (skipOldMsgs skipMsgReceipts : Bool) (fuel : Nat) (st : WalkState)
    (blk : ContentId) : StepResult :=
  if blk ∈ st.seen then ⟨st, [], [], none⟩
  else
    match chainBs blk with
    | none =>
      ⟨⟨insert blk st.seen, st.walked⟩, [], [.cbHeader blk],
       some (.objectNotFound blk)⟩
    | some o =>
      match o.headerDecode with
      | none =>
        ⟨⟨insert blk st.seen, st.walked⟩, [], [.cbHeader blk],
         some (.malformedHeader blk)⟩
      | some b =>
        match messagesStep chainBs startHeight inclRecentRoots skipOldMsgs
            fuel st.walked b with
        | (evM, .error e) =>
          ⟨⟨insert blk st.seen, st.walked⟩, [],
           [WalkEvent.cbHeader blk] ++ evM, some e⟩
        | (evM, .ok (cids0, walked1)) =>
          match stateStep stateBs startHeight inclRecentRoots skipMsgReceipts
              fuel walked1 b with
          | (evS, .error e) =>
            ⟨⟨insert blk st.seen, walked1⟩, [],
             [WalkEvent.cbHeader blk] ++ evM ++ evS, some e⟩
          | (evS, .ok (sOut, walkedF)) =>
            ⟨⟨(emitLoop (insert blk st.seen) ((parentsStep b cids0).1 ++ sOut)).1,
               walkedF⟩,
             (parentsStep b cids0).2,
             [WalkEvent.cbHeader blk] ++ evM ++ evS ++
               (emitLoop (insert blk st.seen) ((parentsStep b cids0).1 ++ sOut)).2,
             none⟩

/-- Result of a whole walk: final state, event trace, and error if aborted. -/
structure WalkResult where
  st : WalkState
  events : List WalkEvent
  err : Option SnapErr

/-- The driver loop of `WalkSnapshot` (`snapshot.go:223-229`): pop the head of
`blocksToWalk`, run `walkChain` on it (appending the block's parents at the tail
of the frontier), stop at the first error or when the frontier is empty. `fuel`
bounds the number of iterations. -/
def walkLoop (chainBs stateBs : Blockstore) (startHeight inclRecentRoots : Int)
    (skipOldMsgs skipMsgReceipts : Bool) (rfuel : Nat) :
    Nat → WalkState → List ContentId → WalkResult
  | _, st, [] => ⟨st, [], none⟩
  | 0, st, _ :: _ => ⟨st, [], some .outOfFuel⟩
  | fuel + 1, st, blk :: rest =>
    match walkChain chainBs stateBs startHeight inclRecentRoots skipOldMsgs
        skipMsgReceipts rfuel st blk with
    | ⟨st1, _, evs, some e⟩ => ⟨st1, evs, some e⟩
    | ⟨st1, enq, evs, none⟩ =>
      ⟨(walkLoop chainBs stateBs startHeight inclRecentRoots skipOldMsgs
          skipMsgReceipts rfuel fuel st1 (rest ++ enq)).st,
       evs ++ (walkLoop chainBs stateBs startHeight inclRecentRoots skipOldMsgs
          skipMsgReceipts rfuel fuel st1 (rest ++ enq)).events,
       (walkLoop chainBs stateBs startHeight inclRecentRoots skipOldMsgs
          skipMsgReceipts rfuel fuel st1 (rest ++ enq)).err⟩

/-- A tip-set, as consumed by the walk: its block identifiers (`ts.Cids()`) and
its height (`ts.Height()`). -/
structure TipSet where
  cids : List ContentId
  height : Int
deriving DecidableEq, Repr

/-- Embedding of `ChainStore.WalkSnapshot` (`snapshot.go:119-234`): fresh
`seen`/`walked` sets, frontier initialized with the tip-set's block ids, window
comparisons against the starting tip-set's height. -/
def walkSnapshot (chainBs stateBs : Blockstore) (ts : TipSet)
    (inclRecentRoots : Int) (skipOldMsgs skipMsgReceipts : Bool)
    (fuel rfuel : Nat) : WalkResult :=
  walkLoop chainBs stateBs ts.height inclRecentRoots skipOldMsgs skipMsgReceipts
    rfuel fuel ⟨∅, ∅⟩ ts.cids

/-- Union of the state and chain blockstores, state store first
(`cs.UnionStore()`, `snapshot.go:25-27`; `bstore.Union` tries its arguments in
order). -/
def unionGet (stateBs chainBs : Blockstore) (c : ContentId) : Option StoredObj :=
  match stateBs c with
  | some o => some o
  | none => chainBs c

/-- A CARv1 archive, abstracted to its observable structure: the declared roots
of the header and the ordered `(id, bytes)` records (`car.CarHeader` and the
`carutil.LdWrite` stream). -/
structure CarArchive where
  roots : List ContentId
  records : List (ContentId × StoredObj)
deriving DecidableEq, Repr

/-- The body of `Export`'s callback applied to each emitted id in order
(`snapshot.go:40-51`): fetch the id from the union store (failure aborts) and
append the `(id, bytes)` record. -/
def exportRecords (u : ContentId → Option StoredObj) :
    List ContentId → Except SnapErr (List (ContentId × StoredObj))
  | [] => .ok []
  | c :: rest =>
    match u c with
    | none => .error (.objectNotFound c)
    | some o =>
      match exportRecords u rest with
      | .error e => .error e
      | .ok rs => .ok ((c, o) :: rs)

/-- Embedding of `ChainStore.Export` (`snapshot.go:29-52`): write a header whose
roots are the tip-set's block ids, then stream one record per id the walk emits,
fetched from the union store; the walk is invoked with `skipMsgReceipts = true`
(the literal `true` argument at `snapshot.go:40`). In the Go code a failing
`Get` aborts the walk mid-stream; the embedding runs the walk with a pure
collector and then fetches, which yields the same archive on every successful
export (the only case the properties below use). -/
def exportSnapshot (chainBs stateBs : Blockstore) (ts : TipSet)
    (inclRecentRoots : Int) (skipOldMsgs : Bool) (fuel rfuel : Nat) :
    Except SnapErr CarArchive :=
  match (walkSnapshot chainBs stateBs ts inclRecentRoots skipOldMsgs true
      fuel rfuel).err with
  | some e => .error e
  | none =>
    match exportRecords (unionGet stateBs chainBs)
        (emittedCids (walkSnapshot chainBs stateBs ts inclRecentRoots
          skipOldMsgs true fuel rfuel).events) with
    | .error e => .error e
    | .ok rs => .ok ⟨ts.cids, rs⟩

/-- Errors of `Import`: a failed store write (wrapping the collaborator's error
code) or a failure to resolve the declared roots into a tip-set
(`cs.LoadTipSet`, `snapshot.go:111-114`). -/
inductive ImportErr
  | writeFailure (code : Nat)
  | incompleteArchive
deriving DecidableEq, Repr

/-- The import-side store is a partial map updated by `PutMany`. -/
abbrev ImpStore := ContentId → Option StoredObj

/-- Insert one record into the store. -/
def putRecord (st : ImpStore) (r : ContentId × StoredObj) : ImpStore :=
  fun c => if c = r.1 then some r.2 else st c

/-- Insert a batch of records, in order. -/
def storePutMany (st : ImpStore) (rs : List (ContentId × StoredObj)) : ImpStore :=
  rs.foldl putRecord st

/-- The external `PutMany` collaborator: writes a batch, returning the updated
store and `some code` on failure (`all-or-nothing per call` per the spec's store
contract; a failing instance may leave the store unchanged). -/
abbrev PutManyFn :=
  List (ContentId × StoredObj) → ImpStore → ImpStore × Option Nat

/-- The always-succeeding `PutMany`: a plain batch insert. -/
def goodPutMany : PutManyFn := fun rs st => (storePutMany st rs, none)

/-- One slot of the `putThrottle` channel (`snapshot.go:69-72`): either one of
the five initial `nil` tokens or the completion result of a dispatched batch. -/
inductive ThrottleEntry
  | token
  | done (e : Option Nat)
deriving DecidableEq, Repr

/-- Modelled from the spec: `cs.LoadTipSet` is not under the repository sources
(only its caller is); per spec section 4.5 the declared roots resolve into a
tip-set exactly when every root is present in the store and decodes as a block
header, and the resulting tip-set consists of those blocks. The import-side
chain and state views are the same universal store (`snapshot.go:55-59`). -/
def loadTipSet (st : ImpStore) (roots : List ContentId) : Option (List ContentId) :=
  if roots.all (fun r => match st r with
      | some o => o.headerDecode.isSome
      | none => false)
  then some roots else none

/-- Observable outcome of an `Import`: the result (resolved tip-set block ids or
error), the final store, the number of batches dispatched asynchronously, the
number of batch completion results consumed from the throttle, and the write
outcomes the importer observed, in program order. -/
structure ImportOutcome where
  result : Except ImportErr (List ContentId)
  store : ImpStore
  dispatched : Nat
  drained : Nat
  observed : List (Option Nat)

/-- The final drain of `Import` (`snapshot.go:104-109`): consume `parallelPuts`
results from the throttle, returning the first error met immediately; after a
clean drain, resolve the declared roots (`snapshot.go:111-116`). Receiving from
the channel when the model queue is empty is unreachable from `importSnapshot`
(the queue always holds exactly five entries) and is modelled as a `nil` token. -/
def drainLoop (roots : List ContentId) :
    Nat → List ThrottleEntry → ImpStore → Nat → Nat → List (Option Nat) →
    ImportOutcome
  | 0, _, st, disp, dr, obs =>
    match loadTipSet st roots with
    | none => ⟨.error .incompleteArchive, st, disp, dr, obs⟩
    | some t => ⟨.ok t, st, disp, dr, obs⟩
  | n + 1, queue, st, disp, dr, obs =>
    match queue with
    | [] => drainLoop roots n [] st disp dr obs
    | ThrottleEntry.token :: q1 => drainLoop roots n q1 st disp dr obs
    | ThrottleEntry.done none :: q1 =>
      drainLoop roots n q1 st disp (dr + 1) (obs ++ [none])
    | ThrottleEntry.done (some e) :: _ =>
      ⟨.error (.writeFailure e), st, disp, dr + 1, obs ++ [some e]⟩

/-- The record loop of `Import` (`snapshot.go:74-109`) under the deterministic
schedule in which a dispatched batch completes immediately and the FIFO channel
is a queue: buffer records; past 1000 buffered, consume one throttle slot
(returning at once if it carries an error), dispatch the batch and queue its
completion; at end of stream flush a non-empty buffer synchronously (returning
at once on failure) and drain the five slots. -/
def importLoop (putMany : PutManyFn) (roots : List ContentId) :
    List (ContentId × StoredObj) → List (ContentId × StoredObj) →
    List ThrottleEntry → ImpStore → Nat → Nat → List (Option Nat) →
    ImportOutcome
  | [], buf, queue, st, disp, dr, obs =>
    if buf.isEmpty then drainLoop roots 5 queue st disp dr obs
    else
      match putMany buf st with
      | (st1, some e) => ⟨.error (.writeFailure e), st1, disp, dr, obs ++ [some e]⟩
      | (st1, none) => drainLoop roots 5 queue st1 disp dr (obs ++ [none])
  | blk :: rest, buf, queue, st, disp, dr, obs =>
    if (buf ++ [blk]).length > 1000 then
      match queue with
      | ThrottleEntry.done (some e) :: _ =>
        ⟨.error (.writeFailure e), st, disp, dr + 1, obs ++ [some e]⟩
      | ThrottleEntry.done none :: q1 =>
        match putMany (buf ++ [blk]) st with
        | (st1, res) =>
          importLoop putMany roots rest [] (q1 ++ [ThrottleEntry.done res]) st1
            (disp + 1) (dr + 1) (obs ++ [none])
      | ThrottleEntry.token :: q1 =>
        match putMany (buf ++ [blk]) st with
        | (st1, res) =>
          importLoop putMany roots rest [] (q1 ++ [ThrottleEntry.done res]) st1
            (disp + 1) dr obs
      | [] =>
        match putMany (buf ++ [blk]) st with
        | (st1, res) =>
          importLoop putMany roots rest [] [ThrottleEntry.done res] st1
            (disp + 1) dr obs
    else importLoop putMany roots rest (buf ++ [blk]) queue st disp dr obs

/-- Embedding of `ChainStore.Import` (`snapshot.go:54-117`): read the archive's
records in order, write them through `putMany` in batches with five throttle
slots, then resolve the declared roots. -/
def importSnapshot (putMany : PutManyFn) (ar : CarArchive) (st : ImpStore) :
    ImportOutcome :=
  importLoop putMany ar.roots ar.records [] (List.replicate 5 ThrottleEntry.token)
    st 0 0 []

/-- The everywhere-empty store. -/
def emptyStore : ImpStore := fun _ => none

/-! Concrete fixtures used by counterexamples and witnesses. -/

/-- A dagcbor, non-identity block id. -/
def cBlk : ContentId := ⟨0, false, Codec.dagCBOR⟩

/-- A raw message root. -/
def cMsg : ContentId := ⟨1, false, Codec.raw⟩

/-- A raw state root. -/
def cState : ContentId := ⟨2, false, Codec.raw⟩

/-- A raw receipts root. -/
def cRcpt : ContentId := ⟨3, false, Codec.raw⟩

/-- An identity-hash id. -/
def cIdent : ContentId := ⟨4, true, Codec.raw⟩

/-- A second dagcbor, non-identity block id. -/
def cBlk2 : ContentId := ⟨5, false, Codec.dagCBOR⟩

/-- A dagcbor id used as a structured node. -/
def cNode : ContentId := ⟨6, false, Codec.dagCBOR⟩

/-- A second raw leaf id. -/
def cLeaf2 : ContentId := ⟨7, false, Codec.raw⟩

/-- A genesis header whose declared parent is the identity-hash id. -/
def hdrGenIdentParent : BlockHeader := ⟨0, [cIdent], cMsg, cState, cRcpt⟩

/-- A genesis header with no parents. -/
def hdrGen : BlockHeader := ⟨0, [], cMsg, cState, cRcpt⟩

/-- A height-one header whose parent is `cBlk`. -/
def hdrOne : BlockHeader := ⟨1, [cBlk], cMsg, cState, cRcpt⟩

/-- A height-two header whose parent is `cBlk`. -/
def hdrTwo : BlockHeader := ⟨2, [cBlk], cMsg, cState, cRcpt⟩

/-- Chain blockstore holding `cBlk ↦ hdrGenIdentParent` only. -/
def chainBsA : Blockstore :=
  fun c => if c = cBlk then some ⟨some hdrGenIdentParent, [], false⟩ else none

/-- State blockstore holding the raw state root's bytes only. -/
def stateBsA : Blockstore :=
  fun c => if c = cState then some ⟨none, [], false⟩ else none

/-- Chain blockstore holding `cBlk ↦ hdrGen` only. -/
def chainBsB : Blockstore :=
  fun c => if c = cBlk then some ⟨some hdrGen, [], false⟩ else none

/-- Chain blockstore for a two-block chain: `cBlk2` at height two with parent
`cBlk` at height zero. -/
def chainBsC : Blockstore :=
  fun c =>
    if c = cBlk2 then some ⟨some hdrTwo, [], false⟩
    else if c = cBlk then some ⟨some hdrGen, [], false⟩
    else none

/-- Chain blockstore holding `cBlk2 ↦ hdrOne` only: a block sitting exactly at
the window boundary when the walk starts at height two with one recent epoch. -/
def chainBsD : Blockstore :=
  fun c => if c = cBlk2 then some ⟨some hdrOne, [], false⟩ else none

/-- Chain blockstore whose only block header sits at the identity-hash id. -/
def chainBsE : Blockstore :=
  fun c => if c = cIdent then some ⟨some hdrGen, [], false⟩ else none

/-- Blockstore with two structured nodes carrying malformed trailing data:
`cNode`'s scan finds one link (`cMsg`) before the malformed byte, while
`cBlk`'s scan finds no link at all. -/
def bsMal : Blockstore :=
  fun c =>
    if c = cNode then some ⟨none, [cMsg], true⟩
    else if c = cBlk then some ⟨none, [], true⟩
    else none

/-- A `PutMany` that always fails with code seven. -/
def pmAlwaysFail : PutManyFn := fun _ st => (st, some 7)

/-- A `PutMany` that fails (code three) exactly on batches of fewer than two
records: the 1001-record dispatched batch succeeds, the one-record final flush
fails. -/
def pmFlushFail : PutManyFn :=
  fun b st => if b.length < 2 then (st, some 3) else (st, none)

/-- A one-record archive. -/
def arOne : CarArchive := ⟨[], [(cBlk, ⟨some hdrGen, [], false⟩)]⟩

/-- A 1002-record archive: long enough to dispatch one asynchronous batch
(threshold 1000) and leave one record for the synchronous final flush. -/
def arBig : CarArchive := ⟨[], List.replicate 1002 (cBlk, ⟨some hdrGen, [], false⟩)⟩

/-! Helper lemmas: the emitted-id view of event lists. -/

theorem emittedCids_append (a b : List WalkEvent) :
    emittedCids (a ++ b) = emittedCids a ++ emittedCids b := by
  simp [emittedCids]

theorem emittedCids_cbOut (c : ContentId) (evs : List WalkEvent) :
    emittedCids (WalkEvent.cbOut c :: evs) = c :: emittedCids evs := by
  simp [emittedCids, WalkEvent.cbCid]

theorem emittedCids_cbHeader (c : ContentId) (evs : List WalkEvent) :
    emittedCids (WalkEvent.cbHeader c :: evs) = c :: emittedCids evs := by
  simp [emittedCids, WalkEvent.cbCid]

/-! Helper lemmas: the emission loop. -/

theorem emitLoop_seen_mono (seen : Finset ContentId) (out : List ContentId) :
    seen ⊆ (emitLoop seen out).1 := by
  induction out generalizing seen with
  | nil => simp [emitLoop]
  | cons c rest ih =>
    simp only [emitLoop]
    split
    · exact ih seen
    · split
      · exact (Finset.subset_insert c seen).trans (ih _)
      · split
        · exact (Finset.subset_insert c seen).trans (ih _)
        · exact (Finset.subset_insert c seen).trans (ih _)

theorem emitLoop_mem_seen (seen : Finset ContentId) (out : List ContentId)
    (c : ContentId) (hc : c ∈ out) : c ∈ (emitLoop seen out).1 := by
  induction out generalizing seen with
  | nil => cases hc
  | cons d rest ih =>
    rcases List.mem_cons.mp hc with h | h
    · subst h
      simp only [emitLoop]
      split
      · exact emitLoop_seen_mono _ _ (by assumption)
      · split
        · exact emitLoop_seen_mono _ _ (Finset.mem_insert_self c seen)
        · split
          · exact emitLoop_seen_mono _ _ (Finset.mem_insert_self c seen)
          · exact emitLoop_seen_mono _ _ (Finset.mem_insert_self c seen)
    · simp only [emitLoop]
      split
      · exact ih _ h
      · split
        · exact ih _ h
        · split
          · exact ih _ h
          · exact ih _ h

/-- Every event of the emission loop is a callback on an id of `out` that was
not yet seen at entry, is not identity-hashed, and has an allowed codec. -/
theorem emitLoop_events_shape (seen : Finset ContentId) (out : List ContentId) :
    ∀ e ∈ (emitLoop seen out).2, ∃ c, e = WalkEvent.cbOut c ∧ c ∈ out ∧
      c ∉ seen ∧ c.mhIdentity = false ∧ codecOk c = true := by
  induction out generalizing seen with
  | nil => simp [emitLoop]
  | cons d rest ih =>
    intro e he
    simp only [emitLoop] at he
    by_cases hd : d ∈ seen
    · rw [if_pos hd] at he
      rcases ih seen e he with ⟨c, h1, h2, h3, h4, h5⟩
      exact ⟨c, h1, List.mem_cons_of_mem _ h2, h3, h4, h5⟩
    · rw [if_neg hd] at he
      by_cases hid : d.mhIdentity
      · rw [if_pos hid] at he
        rcases ih _ e he with ⟨c, h1, h2, h3, h4, h5⟩
        exact ⟨c, h1, List.mem_cons_of_mem _ h2,
          fun hc => h3 (Finset.mem_insert_of_mem hc), h4, h5⟩
      · rw [if_neg hid] at he
        by_cases hcod : codecOk d
        · rw [if_pos hcod] at he
          rcases List.mem_cons.mp he with h | h
          · exact ⟨d, h, List.mem_cons_self _ _, hd, by simpa using hid, hcod⟩
          · rcases ih _ e h with ⟨c, h1, h2, h3, h4, h5⟩
            exact ⟨c, h1, List.mem_cons_of_mem _ h2,
              fun hc => h3 (Finset.mem_insert_of_mem hc), h4, h5⟩
        · rw [if_neg hcod] at he
          rcases ih _ e he with ⟨c, h1, h2, h3, h4, h5⟩
          exact ⟨c, h1, List.mem_cons_of_mem _ h2,
            fun hc => h3 (Finset.mem_insert_of_mem hc), h4, h5⟩

/-- The emission loop never emits the same id twice. -/
theorem emitLoop_emit_nodup (seen : Finset ContentId) (out : List ContentId) :
    (emittedCids (emitLoop seen out).2).Nodup := by
  induction out generalizing seen with
  | nil => simp [emitLoop, emittedCids]
  | cons d rest ih =>
    simp only [emitLoop]
    by_cases hd : d ∈ seen
    · rw [if_pos hd]; exact ih seen
    · rw [if_neg hd]
      by_cases hid : d.mhIdentity
      · rw [if_pos hid]; exact ih _
      · rw [if_neg hid]
        by_cases hcod : codecOk d
        · rw [if_pos hcod]
          rw [emittedCids_cbOut]
          refine List.nodup_cons.mpr ⟨?_, ih _⟩
          intro hmem
          rcases List.mem_filterMap.mp hmem with ⟨e, he, hce⟩
          rcases emitLoop_events_shape _ _ e he with ⟨c, h1, _, h3, _, _⟩
          subst h1
          simp only [WalkEvent.cbCid] at hce
          cases hce
          exact h3 (Finset.mem_insert_self d seen)
        · rw [if_neg hcod]; exact ih _

/-- An unseen id of `out` that survives the identity and codec filters is
passed to the callback by the emission loop. -/
theorem emitLoop_emits (seen : Finset ContentId) (out : List ContentId)
    (c : ContentId) (hc : c ∈ out) (hseen : c ∉ seen)
    (hid : c.mhIdentity = false) (hcod : codecOk c = true) :
    WalkEvent.cbOut c ∈ (emitLoop seen out).2 := by
  induction out generalizing seen with
  | nil => cases hc
  | cons d rest ih =>
    simp only [emitLoop]
    by_cases hd : d ∈ seen
    · rw [if_pos hd]
      have hcr : c ∈ rest := by
        rcases List.mem_cons.mp hc with h | h
        · subst h; exact absurd hd hseen
        · exact h
      exact ih _ hcr hseen
    · rw [if_neg hd]
      by_cases hcd : c = d
      · subst hcd
        rw [if_neg (by simp [hid]), if_pos hcod]
        exact List.mem_cons_self _ _
      · have hcr : c ∈ rest := by
          rcases List.mem_cons.mp hc with h | h
          · exact absurd h hcd
          · exact h
        have hseen1 : c ∉ insert d seen := by
          simp [Finset.mem_insert, hcd, hseen]
        by_cases hdi : d.mhIdentity
        · rw [if_pos hdi]; exact ih _ hcr hseen1
        · rw [if_neg hdi]
          by_cases hdc : codecOk d
          · rw [if_pos hdc]
            exact List.mem_cons_of_mem _ (ih _ hcr hseen1)
          · rw [if_neg hdc]; exact ih _ hcr hseen1

/-- Ids of `out` are in `seen` afterwards, and previously unseen ones are either
filtered (identity hash or disallowed codec) or passed to the callback. -/
theorem emitLoop_covered (seen : Finset ContentId) (out : List ContentId) :
    ∀ c ∈ (emitLoop seen out).1, c ∈ seen ∨ c.mhIdentity = true ∨
      codecOk c = false ∨ WalkEvent.cbOut c ∈ (emitLoop seen out).2 := by
  induction out generalizing seen with
  | nil => exact fun c hc => Or.inl (by simpa [emitLoop] using hc)
  | cons d rest ih =>
    intro c hc
    simp only [emitLoop]
    simp only [emitLoop] at hc
    by_cases hd : d ∈ seen
    · rw [if_pos hd] at hc ⊢
      exact ih seen c hc
    · rw [if_neg hd] at hc ⊢
      by_cases hdi : d.mhIdentity
      · rw [if_pos hdi] at hc ⊢
        rcases ih _ c hc with h | h
        · rcases Finset.mem_insert.mp h with h1 | h1
          · subst h1; exact Or.inr (Or.inl hdi)
          · exact Or.inl h1
        · exact Or.inr h
      · rw [if_neg hdi] at hc ⊢
        by_cases hdc : codecOk d
        · rw [if_pos hdc] at hc ⊢
          rcases ih _ c hc with h | h
          · rcases Finset.mem_insert.mp h with h1 | h1
            · subst h1
              exact Or.inr (Or.inr (Or.inr (List.mem_cons_self _ _)))
            · exact Or.inl h1
          · rcases h with h | h | h
            · exact Or.inr (Or.inl h)
            · exact Or.inr (Or.inr (Or.inl h))
            · exact Or.inr (Or.inr (Or.inr (List.mem_cons_of_mem _ h)))
        · rw [if_neg hdc] at hc ⊢
          rcases ih _ c hc with h | h
          · rcases Finset.mem_insert.mp h with h1 | h1
            · subst h1
              exact Or.inr (Or.inr (Or.inl (by simpa using hdc)))
            · exact Or.inl h1
          · exact Or.inr h

/-! Helper lemmas: the per-block step functions. -/

theorem messagesStep_fst (chainBs : Blockstore) (sh irr : Int) (som : Bool)
    (fuel : Nat) (walked : Finset ContentId) (b : BlockHeader) :
    (messagesStep chainBs sh irr som fuel walked b).1 =
      if !som || decide (b.height > sh - irr) then [WalkEvent.expandMsgs b.messages]
      else [] := by
  unfold messagesStep
  split <;> simp_all

theorem messagesStep_no_cb (chainBs : Blockstore) (sh irr : Int) (som : Bool)
    (fuel : Nat) (walked : Finset ContentId) (b : BlockHeader) :
    emittedCids (messagesStep chainBs sh irr som fuel walked b).1 = [] := by
  rw [messagesStep_fst]
  split <;> simp [emittedCids, WalkEvent.cbCid]

theorem stateStep_fst_mem (stateBs : Blockstore) (sh irr : Int) (smr : Bool)
    (fuel : Nat) (walked : Finset ContentId) (b : BlockHeader) :
    ∀ e ∈ (stateStep stateBs sh irr smr fuel walked b).1,
      e = WalkEvent.expandState b.parentStateRoot ∨
      e = WalkEvent.receiptLeaf b.parentMessageReceipts := by
  unfold stateStep
  split
  · split
    · simp
    · split
      · split <;> simp
      · simp
  · simp

theorem stateStep_no_cb (stateBs : Blockstore) (sh irr : Int) (smr : Bool)
    (fuel : Nat) (walked : Finset ContentId) (b : BlockHeader) :
    emittedCids (stateStep stateBs sh irr smr fuel walked b).1 = [] := by
  rw [emittedCids, List.filterMap_eq_nil_iff]
  intro e he
  rcases stateStep_fst_mem stateBs sh irr smr fuel walked b e he with h | h <;>
    subst h <;> rfl

/-! Helper lemmas: `walkChain`. -/

theorem walkChain_seen_mono (chainBs stateBs : Blockstore) (sh irr : Int)
    (som smr : Bool) (fuel : Nat) (st : WalkState) (blk : ContentId) :
    st.seen ⊆ (walkChain chainBs stateBs sh irr som smr fuel st blk).st.seen := by
  unfold walkChain
  split
  · exact Finset.Subset.refl _
  · split
    · exact Finset.subset_insert _ _
    · split
      · exact Finset.subset_insert _ _
      · split
        · exact Finset.subset_insert _ _
        · split
          · exact Finset.subset_insert _ _
          · exact (Finset.subset_insert _ _).trans (emitLoop_seen_mono _ _)

theorem walkChain_mem_seen (chainBs stateBs : Blockstore) (sh irr : Int)
    (som smr : Bool) (fuel : Nat) (st : WalkState) (blk : ContentId) :
    blk ∈ (walkChain chainBs stateBs sh irr som smr fuel st blk).st.seen := by
  unfold walkChain
  split
  · assumption
  · split
    · exact Finset.mem_insert_self _ _
    · split
      · exact Finset.mem_insert_self _ _
      · split
        · exact Finset.mem_insert_self _ _
        · split
          · exact Finset.mem_insert_self _ _
          · exact emitLoop_seen_mono _ _ (Finset.mem_insert_self _ _)

/-- Emission invariant of one step: each id this step passes to the callback was
unseen at entry and is seen at exit, and the step emits no id twice. -/
theorem walkChain_emit_inv (chainBs stateBs : Blockstore) (sh irr : Int)
    (som smr : Bool) (fuel : Nat) (st : WalkState) (blk : ContentId) :
    (∀ c ∈ emittedCids (walkChain chainBs stateBs sh irr som smr fuel st blk).events,
      c ∉ st.seen ∧
        c ∈ (walkChain chainBs stateBs sh irr som smr fuel st blk).st.seen) ∧
    (emittedCids (walkChain chainBs stateBs sh irr som smr fuel st blk).events).Nodup := by
  unfold walkChain
  split
  · simp [emittedCids]
  · rename_i hblk
    split
    · constructor
      · intro c hc
        simp [emittedCids, WalkEvent.cbCid] at hc
        subst hc
        exact ⟨hblk, Finset.mem_insert_self _ _⟩
      · simp [emittedCids, WalkEvent.cbCid]
    · split
      · constructor
        · intro c hc
          simp [emittedCids, WalkEvent.cbCid] at hc
          subst hc
          exact ⟨hblk, Finset.mem_insert_self _ _⟩
        · simp [emittedCids, WalkEvent.cbCid]
      · rename_i o b hdec
        split
        · rename_i evM e heqM
          have hm := messagesStep_no_cb chainBs sh irr som fuel st.walked b
          rw [heqM] at hm
          constructor
          · intro c hc
            simp only [emittedCids_append, hm] at hc
            simp [emittedCids, WalkEvent.cbCid] at hc
            subst hc
            exact ⟨hblk, Finset.mem_insert_self _ _⟩
          · simp only [emittedCids_append, hm]
            simp [emittedCids, WalkEvent.cbCid]
        · rename_i evM cids0 walked1 heqM
          split
          · rename_i evS e heqS
            have hm := messagesStep_no_cb chainBs sh irr som fuel st.walked b
            rw [heqM] at hm
            have hs := stateStep_no_cb stateBs sh irr smr fuel walked1 b
            rw [heqS] at hs
            constructor
            · intro c hc
              simp only [emittedCids_append, hm, hs] at hc
              simp [emittedCids, WalkEvent.cbCid] at hc
              subst hc
              exact ⟨hblk, Finset.mem_insert_self _ _⟩
            · simp only [emittedCids_append, hm, hs]
              simp [emittedCids, WalkEvent.cbCid]
          · rename_i evS sOut walkedF heqS
            have hm0 := messagesStep_no_cb chainBs sh irr som fuel st.walked b
            rw [heqM] at hm0
            have hm : emittedCids evM = [] := hm0
            have hs0 := stateStep_no_cb stateBs sh irr smr fuel walked1 b
            rw [heqS] at hs0
            have hs : emittedCids evS = [] := hs0
            constructor
            · intro c hc
              simp only [emittedCids_append, hm, hs, List.append_nil,
                emittedCids_cbHeader] at hc
              simp only [emittedCids, List.filterMap_nil, List.cons_append,
                List.nil_append, List.mem_cons] at hc
              rcases hc with hc | hc
              · subst hc
                exact ⟨hblk, emitLoop_seen_mono _ _ (Finset.mem_insert_self _ _)⟩
              · rcases List.mem_filterMap.mp hc with ⟨e, he, hce⟩
                rcases emitLoop_events_shape _ _ e he with ⟨d, h1, h2, h3, _, _⟩
                subst h1
                simp only [WalkEvent.cbCid] at hce
                cases hce
                refine ⟨fun hcs => h3 (Finset.mem_insert_of_mem hcs), ?_⟩
                exact emitLoop_mem_seen _ _ _ h2
            · simp only [emittedCids_append, hm, hs, List.append_nil,
                emittedCids_cbHeader]
              simp only [emittedCids, List.filterMap_nil, List.cons_append,
                List.nil_append]
              refine List.nodup_cons.mpr ⟨?_, emitLoop_emit_nodup _ _⟩
              intro hmem
              rcases List.mem_filterMap.mp hmem with ⟨e, he, hce⟩
              rcases emitLoop_events_shape _ _ e he with ⟨d, h1, _, h3, _, _⟩
              subst h1
              simp only [WalkEvent.cbCid] at hce
              cases hce
              exact h3 (Finset.mem_insert_self _ _)

/-- Coverage invariant of one step: every id in `seen` at exit was either
already seen, is filtered by the identity or codec rule, or was emitted. -/
theorem walkChain_covered (chainBs stateBs : Blockstore) (sh irr : Int)
    (som smr : Bool) (fuel : Nat) (st : WalkState) (blk : ContentId) :
    ∀ c ∈ (walkChain chainBs stateBs sh irr som smr fuel st blk).st.seen,
      c ∈ st.seen ∨ c.mhIdentity = true ∨ codecOk c = false ∨
        c ∈ emittedCids (walkChain chainBs stateBs sh irr som smr fuel st blk).events := by
  unfold walkChain
  split
  · exact fun c hc => Or.inl hc
  · split
    · intro c hc
      rcases Finset.mem_insert.mp hc with h | h
      · subst h
        exact Or.inr (Or.inr (Or.inr (by simp [emittedCids, WalkEvent.cbCid])))
      · exact Or.inl h
    · split
      · intro c hc
        rcases Finset.mem_insert.mp hc with h | h
        · subst h
          exact Or.inr (Or.inr (Or.inr (by simp [emittedCids, WalkEvent.cbCid])))
        · exact Or.inl h
      · split
        · intro c hc
          rcases Finset.mem_insert.mp hc with h | h
          · subst h
            refine Or.inr (Or.inr (Or.inr ?_))
            simp only [emittedCids_append]
            simp [emittedCids, WalkEvent.cbCid]
          · exact Or.inl h
        · split
          · intro c hc
            rcases Finset.mem_insert.mp hc with h | h
            · subst h
              refine Or.inr (Or.inr (Or.inr ?_))
              simp only [emittedCids_append]
              simp [emittedCids, WalkEvent.cbCid]
            · exact Or.inl h
          · intro c hc
            rcases emitLoop_covered _ _ c hc with h | h | h | h
            · rcases Finset.mem_insert.mp h with h1 | h1
              · subst h1
                refine Or.inr (Or.inr (Or.inr ?_))
                simp only [emittedCids_append]
                simp [emittedCids, WalkEvent.cbCid]
              · exact Or.inl h1
            · exact Or.inr (Or.inl h)
            · exact Or.inr (Or.inr (Or.inl h))
            · refine Or.inr (Or.inr (Or.inr ?_))
              simp only [emittedCids_append]
              rw [List.mem_append]
              refine Or.inr ?_
              exact List.mem_filterMap.mpr ⟨_, h, rfl⟩

/-! Helper lemmas: the walk driver loop. -/

theorem walkLoop_seen_mono (chainBs stateBs : Blockstore) (sh irr : Int)
    (som smr : Bool) (rfuel : Nat) :
    ∀ (fuel : Nat) (st : WalkState) (q : List ContentId),
      st.seen ⊆ (walkLoop chainBs stateBs sh irr som smr rfuel fuel st q).st.seen := by
  intro fuel
  induction fuel with
  | zero =>
    intro st q
    cases q <;> exact Finset.Subset.refl _
  | succ n ih =>
    intro st q
    cases q with
    | nil => exact Finset.Subset.refl _
    | cons blk rest =>
      simp only [walkLoop]
      split
      · rename_i st1 enq evs e heq
        have h := walkChain_seen_mono chainBs stateBs sh irr som smr rfuel st blk
        rw [heq] at h
        exact h
      · rename_i st1 enq evs heq
        have h := walkChain_seen_mono chainBs stateBs sh irr som smr rfuel st blk
        rw [heq] at h
        exact Finset.Subset.trans h (ih st1 (rest ++ enq))

/-- Blocks of the frontier end up in `seen` whenever the loop completes without
an error. -/
theorem walkLoop_mem_seen (chainBs stateBs : Blockstore) (sh irr : Int)
    (som smr : Bool) (rfuel : Nat) :
    ∀ (fuel : Nat) (st : WalkState) (q : List ContentId),
      (walkLoop chainBs stateBs sh irr som smr rfuel fuel st q).err = none →
      ∀ blk ∈ q, blk ∈ (walkLoop chainBs stateBs sh irr som smr rfuel fuel st q).st.seen := by
  intro fuel
  induction fuel with
  | zero =>
    intro st q herr blk hblk
    cases q with
    | nil => cases hblk
    | cons a r => simp [walkLoop] at herr
  | succ n ih =>
    intro st q herr blk hblk
    cases q with
    | nil => cases hblk
    | cons a rest =>
      simp only [walkLoop] at herr ⊢
      split at herr
      · simp at herr
      · rename_i st1 enq evs heq
        simp only at herr ⊢
        rcases List.mem_cons.mp hblk with h | h
        · subst h
          have hmem := walkChain_mem_seen chainBs stateBs sh irr som smr rfuel st blk
          rw [heq] at hmem
          exact walkLoop_seen_mono chainBs stateBs sh irr som smr rfuel n st1 _ hmem
        · exact ih st1 (rest ++ enq) herr blk (List.mem_append.mpr (Or.inl h))

/-- Emission invariant of the loop: ids passed to the callback were unseen when
their step started and are seen at the end, and no id is emitted twice. -/
theorem walkLoop_emit_inv (chainBs stateBs : Blockstore) (sh irr : Int)
    (som smr : Bool) (rfuel : Nat) :
    ∀ (fuel : Nat) (st : WalkState) (q : List ContentId),
      (∀ c ∈ emittedCids (walkLoop chainBs stateBs sh irr som smr rfuel fuel st q).events,
        c ∉ st.seen ∧
          c ∈ (walkLoop chainBs stateBs sh irr som smr rfuel fuel st q).st.seen) ∧
      (emittedCids (walkLoop chainBs stateBs sh irr som smr rfuel fuel st q).events).Nodup := by
  intro fuel
  induction fuel with
  | zero =>
    intro st q
    cases q <;> simp [walkLoop, emittedCids]
  | succ n ih =>
    intro st q
    cases q with
    | nil => simp [walkLoop, emittedCids]
    | cons blk rest =>
      simp only [walkLoop]
      split
      · rename_i st1 enq evs e heq
        have h := walkChain_emit_inv chainBs stateBs sh irr som smr rfuel st blk
        rw [heq] at h
        exact h
      · rename_i st1 enq evs heq
        have h := walkChain_emit_inv chainBs stateBs sh irr som smr rfuel st blk
        rw [heq] at h
        have hsub := walkChain_seen_mono chainBs stateBs sh irr som smr rfuel st blk
        rw [heq] at hsub
        have hrec := ih st1 (rest ++ enq)
        constructor
        · intro c hc
          simp only [emittedCids_append, List.mem_append] at hc
          rcases hc with hc | hc
          · rcases h.1 c hc with ⟨h1, h2⟩
            exact ⟨h1, walkLoop_seen_mono chainBs stateBs sh irr som smr rfuel n st1 _ h2⟩
          · rcases hrec.1 c hc with ⟨h1, h2⟩
            exact ⟨fun hcs => h1 (hsub hcs), h2⟩
        · simp only [emittedCids_append]
          refine List.Nodup.append h.2 hrec.2 ?_
          intro c hc1 hc2
          rcases h.1 c hc1 with ⟨_, h2⟩
          rcases hrec.1 c hc2 with ⟨h3, _⟩
          exact h3 h2

/-- Coverage invariant of the loop: every id seen at the end was seen at the
start, is filtered by the identity or codec rule, or was emitted. -/
theorem walkLoop_covered (chainBs stateBs : Blockstore) (sh irr : Int)
    (som smr : Bool) (rfuel : Nat) :
    ∀ (fuel : Nat) (st : WalkState) (q : List ContentId),
      ∀ c ∈ (walkLoop chainBs stateBs sh irr som smr rfuel fuel st q).st.seen,
        c ∈ st.seen ∨ c.mhIdentity = true ∨ codecOk c = false ∨
          c ∈ emittedCids (walkLoop chainBs stateBs sh irr som smr rfuel fuel st q).events := by
  intro fuel
  induction fuel with
  | zero =>
    intro st q c hc
    cases q <;> exact Or.inl hc
  | succ n ih =>
    intro st q c hc
    cases q with
    | nil => exact Or.inl hc
    | cons blk rest =>
      simp only [walkLoop] at hc ⊢
      revert hc
      split
      · rename_i st1 enq evs e heq
        intro hc
        have h := walkChain_covered chainBs stateBs sh irr som smr rfuel st blk
        rw [heq] at h
        exact h c hc
      · rename_i st1 enq evs heq
        intro hc
        have h := walkChain_covered chainBs stateBs sh irr som smr rfuel st blk
        rw [heq] at h
        rcases ih st1 (rest ++ enq) c hc with h1 | h1 | h1 | h1
        · rcases h c h1 with h2 | h2 | h2 | h2
          · exact Or.inl h2
          · exact Or.inr (Or.inl h2)
          · exact Or.inr (Or.inr (Or.inl h2))
          · refine Or.inr (Or.inr (Or.inr ?_))
            simp only [emittedCids_append, List.mem_append]
            exact Or.inl h2
        · exact Or.inr (Or.inl h1)
        · exact Or.inr (Or.inr (Or.inl h1))
        · refine Or.inr (Or.inr (Or.inr ?_))
          simp only [emittedCids_append, List.mem_append]
          exact Or.inr h1

/-- C2: For every walk — any stores, tip-set, parameters and fuel, including
walks that abort with an error — no ContentId is passed to the output callback
twice, even when several blocks reference a shared sub-DAG: the emitted id
sequence of `walkSnapshot` has no duplicates, the seen set guarding both
block-header emission and out-loop emission. -/
theorem c2_walk_emits_no_duplicate (chainBs stateBs : Blockstore) (ts : TipSet)
    (irr : Int) (som smr : Bool) (fuel rfuel : Nat) :
    (emittedCids (walkSnapshot chainBs stateBs ts irr som smr fuel rfuel).events).Nodup :=
  (walkLoop_emit_inv chainBs stateBs ts.height irr som smr rfuel fuel ⟨∅, ∅⟩ ts.cids).2

/-- The message-window test of `snapshot.go:157`, as a proposition. -/
theorem msgCond_iff (som : Bool) (h sh irr : Int) :
    ((!som || decide (h > sh - irr)) = true) ↔ (som = false ∨ h > sh - irr) := by
  simp [Bool.or_eq_true, decide_eq_true_iff]

/-- The state-window test of `snapshot.go:178`, as a proposition. -/
theorem stateCond_iff (h sh irr : Int) :
    ((decide (h = 0) || decide (h > sh - irr)) = true) ↔ (h = 0 ∨ h > sh - irr) := by
  simp [Bool.or_eq_true, decide_eq_true_iff]

/-- C3: For every walked block header (a dequeued block id that is not yet seen
and whose header fetches and decodes), the walker applies the recursive DAG
expander (dedup-guarded, per the spec's expander contract) to the block's
message-DAG root if and only if `skipOldMsgs` is false or the block's height is
strictly greater than `startHeight - inclRecentRoots`; in particular at the
boundary height `startHeight - inclRecentRoots` the message DAG is omitted when
skipping and included when not. -/
theorem c3_message_window_iff (chainBs stateBs : Blockstore) (sh irr : Int)
    (som smr : Bool) (fuel : Nat) (st : WalkState) (blk : ContentId)
    (o : StoredObj) (b : BlockHeader)
    (hblk : blk ∉ st.seen) (ho : chainBs blk = some o)
    (hb : o.headerDecode = some b) :
    (WalkEvent.expandMsgs b.messages ∈
        (walkChain chainBs stateBs sh irr som smr fuel st blk).events) ↔
      (som = false ∨ b.height > sh - irr) := by
  simp only [walkChain, if_neg hblk, ho, hb]
  split
  · rename_i evM e heqM
    have hf0 := messagesStep_fst chainBs sh irr som fuel st.walked b
    rw [heqM] at hf0
    have hf : evM = if !som || decide (b.height > sh - irr)
        then [WalkEvent.expandMsgs b.messages] else [] := hf0
    subst hf
    by_cases hcond : (!som || decide (b.height > sh - irr)) = true
    · rw [if_pos hcond]
      exact iff_of_true (by simp) ((msgCond_iff som b.height sh irr).mp hcond)
    · rw [if_neg hcond]
      refine iff_of_false (by simp) ?_
      exact fun hor => hcond ((msgCond_iff som b.height sh irr).mpr hor)
  · rename_i evM cids0 walked1 heqM
    have hf0 := messagesStep_fst chainBs sh irr som fuel st.walked b
    rw [heqM] at hf0
    have hf : evM = if !som || decide (b.height > sh - irr)
        then [WalkEvent.expandMsgs b.messages] else [] := hf0
    subst hf
    split
    · rename_i evS e heqS
      have hso := stateStep_fst_mem stateBs sh irr smr fuel walked1 b
      rw [heqS] at hso
      have hs : ∀ e ∈ evS, e = WalkEvent.expandState b.parentStateRoot ∨
          e = WalkEvent.receiptLeaf b.parentMessageReceipts := hso
      by_cases hcond : (!som || decide (b.height > sh - irr)) = true
      · rw [if_pos hcond]
        exact iff_of_true (by simp) ((msgCond_iff som b.height sh irr).mp hcond)
      · rw [if_neg hcond]
        refine iff_of_false ?_ ?_
        · intro hmem
          simp only [List.append_nil, List.mem_append, List.mem_singleton] at hmem
          rcases hmem with hmem | hmem
          · cases hmem
          · rcases hs _ hmem with h1 | h1 <;> cases h1
        · exact fun hor => hcond ((msgCond_iff som b.height sh irr).mpr hor)
    · rename_i evS sOut walkedF heqS
      have hso := stateStep_fst_mem stateBs sh irr smr fuel walked1 b
      rw [heqS] at hso
      have hs : ∀ e ∈ evS, e = WalkEvent.expandState b.parentStateRoot ∨
          e = WalkEvent.receiptLeaf b.parentMessageReceipts := hso
      by_cases hcond : (!som || decide (b.height > sh - irr)) = true
      · rw [if_pos hcond]
        exact iff_of_true (by simp) ((msgCond_iff som b.height sh irr).mp hcond)
      · rw [if_neg hcond]
        refine iff_of_false ?_ ?_
        · intro hmem
          simp only [List.append_nil, List.mem_append, List.mem_singleton] at hmem
          rcases hmem with (hmem | hmem) | hmem
          · cases hmem
          · rcases hs _ hmem with h1 | h1 <;> cases h1
          · rcases emitLoop_events_shape _ _ _ hmem with ⟨d, h1, _⟩
            cases h1
        · exact fun hor => hcond ((msgCond_iff som b.height sh irr).mpr hor)

/-- Witness for C3 at the exact window boundary: the walk starts at height two
with one recent epoch, the dequeued block sits at height one (the boundary), and
message skipping is on, so the message DAG is not expanded. -/
theorem c3_message_window_iff_witness :
    (WalkEvent.expandMsgs hdrOne.messages ∈
        (walkChain chainBsD stateBsA 2 1 true true 1 ⟨∅, ∅⟩ cBlk2).events) ↔
      (true = false ∨ hdrOne.height > 2 - 1) :=
  c3_message_window_iff chainBsD stateBsA 2 1 true true 1 ⟨∅, ∅⟩ cBlk2
    ⟨some hdrOne, [], false⟩ hdrOne (by decide) (by decide) (by decide)

theorem messagesStep_fst_mem (chainBs : Blockstore) (sh irr : Int) (som : Bool)
    (fuel : Nat) (walked : Finset ContentId) (b : BlockHeader) :
    ∀ e ∈ (messagesStep chainBs sh irr som fuel walked b).1,
      e = WalkEvent.expandMsgs b.messages := by
  rw [messagesStep_fst]
  split <;> simp

/-- Case analysis of a successful state step: inside the window the events are
the expander application plus, when receipts are not skipped, the receipts-leaf
inclusion; outside the window the step does nothing. -/
theorem stateStep_ok_cases (stateBs : Blockstore) (sh irr : Int) (smr : Bool)
    (fuel : Nat) (walked : Finset ContentId) (b : BlockHeader)
    (evS : List WalkEvent) (sOut : List ContentId) (walkedF : Finset ContentId)
    (hS : stateStep stateBs sh irr smr fuel walked b = (evS, .ok (sOut, walkedF))) :
    ((decide (b.height = 0) || decide (b.height > sh - irr)) = true ∧
      ((smr = false ∧ evS = [WalkEvent.expandState b.parentStateRoot,
          WalkEvent.receiptLeaf b.parentMessageReceipts]) ∨
       (smr = true ∧ evS = [WalkEvent.expandState b.parentStateRoot]))) ∨
    ((decide (b.height = 0) || decide (b.height > sh - irr)) = false ∧ evS = []) := by
  unfold stateStep at hS
  split at hS
  · rename_i hcond
    split at hS
    · simp at hS
    · rename_i scids walked2 hex
      split at hS
      · rename_i hsmr
        split at hS
        · rw [Prod.mk.injEq] at hS
          exact Or.inl ⟨hcond, Or.inl ⟨by simpa using hsmr, hS.1.symm⟩⟩
        · rw [Prod.mk.injEq] at hS
          exact Or.inl ⟨hcond, Or.inl ⟨by simpa using hsmr, hS.1.symm⟩⟩
      · rename_i hsmr
        rw [Prod.mk.injEq] at hS
        refine Or.inl ⟨hcond, Or.inr ⟨?_, hS.1.symm⟩⟩
        cases hsv : smr with
        | true => rfl
        | false => exact absurd (by simp [hsv]) hsmr
  · rename_i hcond
    rw [Prod.mk.injEq] at hS
    exact Or.inr ⟨by simpa using hcond, hS.1.symm⟩

/-- C4: For every walked block header whose step completes, the walker applies
the recursive DAG expander (dedup-guarded) to the block's state root if and only
if the block's height equals zero or exceeds `startHeight - inclRecentRoots`,
and — when receipts are not skipped — includes the receipts root (dedup-guarded)
under exactly the same condition; in particular the genesis (height zero) state
root is included regardless of the window parameters. -/
theorem c4_state_window_iff (chainBs stateBs : Blockstore) (sh irr : Int)
    (som smr : Bool) (fuel : Nat) (st : WalkState) (blk : ContentId)
    (o : StoredObj) (b : BlockHeader)
    (hblk : blk ∉ st.seen) (ho : chainBs blk = some o)
    (hb : o.headerDecode = some b)
    (hok : (walkChain chainBs stateBs sh irr som smr fuel st blk).err = none) :
    ((WalkEvent.expandState b.parentStateRoot ∈
        (walkChain chainBs stateBs sh irr som smr fuel st blk).events) ↔
      (b.height = 0 ∨ b.height > sh - irr)) ∧
    (smr = false →
      ((WalkEvent.receiptLeaf b.parentMessageReceipts ∈
          (walkChain chainBs stateBs sh irr som smr fuel st blk).events) ↔
        (b.height = 0 ∨ b.height > sh - irr))) := by
  rcases hM : messagesStep chainBs sh irr som fuel st.walked b with ⟨evM, resM⟩
  have hMe : ∀ e ∈ evM, e = WalkEvent.expandMsgs b.messages := by
    have h0 := messagesStep_fst_mem chainBs sh irr som fuel st.walked b
    rw [hM] at h0
    exact h0
  cases resM with
  | error e =>
    simp only [walkChain, if_neg hblk, ho, hb, hM] at hok
    cases hok
  | ok pM =>
    rcases pM with ⟨cids0, walked1⟩
    rcases hS : stateStep stateBs sh irr smr fuel walked1 b with ⟨evS, resS⟩
    cases resS with
    | error e =>
      simp only [walkChain, if_neg hblk, ho, hb, hM, hS] at hok
      cases hok
    | ok pS =>
      rcases pS with ⟨sOut, walkedF⟩
      simp only [walkChain, if_neg hblk, ho, hb, hM, hS]
      rcases stateStep_ok_cases stateBs sh irr smr fuel walked1 b evS sOut walkedF hS
        with ⟨hcond, hcases⟩ | ⟨hcond, hevS⟩
      · have hrhs : b.height = 0 ∨ b.height > sh - irr :=
          (stateCond_iff b.height sh irr).mp hcond
        constructor
        · refine iff_of_true ?_ hrhs
          rcases hcases with ⟨_, hevS⟩ | ⟨_, hevS⟩ <;> subst hevS <;> simp
        · intro hsmr
          refine iff_of_true ?_ hrhs
          rcases hcases with ⟨_, hevS⟩ | ⟨hsmr2, _⟩
          · subst hevS; simp
          · rw [hsmr] at hsmr2; cases hsmr2
      · have hrhs : ¬(b.height = 0 ∨ b.height > sh - irr) := by
          intro hor
          rw [(stateCond_iff b.height sh irr).mpr hor] at hcond
          cases hcond
        subst hevS
        have hnever1 : ∀ x, WalkEvent.expandState x ∉
            ([WalkEvent.cbHeader blk] ++ evM ++ [] ++
              (emitLoop (insert blk st.seen)
                ((parentsStep b cids0).1 ++ sOut)).2) := by
          intro x hmem
          simp only [List.append_nil, List.mem_append, List.mem_singleton] at hmem
          rcases hmem with (h1 | h1) | h1
          · cases h1
          · cases hMe _ h1
          · rcases emitLoop_events_shape _ _ _ h1 with ⟨d, h2, _⟩
            cases h2
        have hnever2 : ∀ y, WalkEvent.receiptLeaf y ∉
            ([WalkEvent.cbHeader blk] ++ evM ++ [] ++
              (emitLoop (insert blk st.seen)
                ((parentsStep b cids0).1 ++ sOut)).2) := by
          intro y hmem
          simp only [List.append_nil, List.mem_append, List.mem_singleton] at hmem
          rcases hmem with (h1 | h1) | h1
          · cases h1
          · cases hMe _ h1
          · rcases emitLoop_events_shape _ _ _ h1 with ⟨d, h2, _⟩
            cases h2
        constructor
        · exact iff_of_false (hnever1 b.parentStateRoot) hrhs
        · exact fun _ => iff_of_false (hnever2 b.parentMessageReceipts) hrhs

/-- Witness for C4 at genesis: height zero with a five-epoch start height and a
zero-epoch window, receipts not skipped — the state root is included regardless
of the window, and so is the receipts leaf. -/
theorem c4_state_window_iff_witness :
    ((WalkEvent.expandState hdrGen.parentStateRoot ∈
        (walkChain chainBsB stateBsA 5 0 true false 1 ⟨∅, ∅⟩ cBlk).events) ↔
      (hdrGen.height = 0 ∨ hdrGen.height > 5 - 0)) ∧
    (false = false →
      ((WalkEvent.receiptLeaf hdrGen.parentMessageReceipts ∈
          (walkChain chainBsB stateBsA 5 0 true false 1 ⟨∅, ∅⟩ cBlk).events) ↔
        (hdrGen.height = 0 ∨ hdrGen.height > 5 - 0))) :=
  c4_state_window_iff chainBsB stateBsA 5 0 true false 1 ⟨∅, ∅⟩ cBlk
    ⟨some hdrGen, [], false⟩ hdrGen (by decide) (by decide) (by decide) (by decide)

/-- C9: For every walked block header whose step completes, a block of positive
height hands exactly its parent ids to the frontier, and the driver loop
continues with them appended at the tail of the remaining frontier
(breadth-first); a block of height zero enqueues nothing, and each of its
declared parent ids is instead routed through the filtered output loop,
reaching the callback as a leaf whenever it is new and passes the identity and
codec filters. -/
theorem c9_parent_rule (chainBs stateBs : Blockstore) (sh irr : Int)
    (som smr : Bool) (rfuel : Nat) (st : WalkState) (blk : ContentId)
    (o : StoredObj) (b : BlockHeader) (fuel2 : Nat) (rest : List ContentId)
    (p : ContentId)
    (hblk : blk ∉ st.seen) (ho : chainBs blk = some o)
    (hb : o.headerDecode = some b)
    (hok : (walkChain chainBs stateBs sh irr som smr rfuel st blk).err = none) :
    (0 < b.height →
      (walkChain chainBs stateBs sh irr som smr rfuel st blk).enqueue = b.parents ∧
      walkLoop chainBs stateBs sh irr som smr rfuel (fuel2 + 1) st (blk :: rest) =
        ⟨(walkLoop chainBs stateBs sh irr som smr rfuel fuel2
            (walkChain chainBs stateBs sh irr som smr rfuel st blk).st
            (rest ++ b.parents)).st,
         (walkChain chainBs stateBs sh irr som smr rfuel st blk).events ++
           (walkLoop chainBs stateBs sh irr som smr rfuel fuel2
             (walkChain chainBs stateBs sh irr som smr rfuel st blk).st
             (rest ++ b.parents)).events,
         (walkLoop chainBs stateBs sh irr som smr rfuel fuel2
           (walkChain chainBs stateBs sh irr som smr rfuel st blk).st
           (rest ++ b.parents)).err⟩) ∧
    (b.height = 0 →
      (walkChain chainBs stateBs sh irr som smr rfuel st blk).enqueue = [] ∧
      (p ∈ b.parents → p ∉ insert blk st.seen → p.mhIdentity = false →
        codecOk p = true →
        WalkEvent.cbOut p ∈
          (walkChain chainBs stateBs sh irr som smr rfuel st blk).events)) := by
  rcases hM : messagesStep chainBs sh irr som rfuel st.walked b with ⟨evM, resM⟩
  cases resM with
  | error e =>
    simp only [walkChain, if_neg hblk, ho, hb, hM] at hok
    cases hok
  | ok pM =>
    rcases pM with ⟨cids0, walked1⟩
    rcases hS : stateStep stateBs sh irr smr rfuel walked1 b with ⟨evS, resS⟩
    cases resS with
    | error e =>
      simp only [walkChain, if_neg hblk, ho, hb, hM, hS] at hok
      cases hok
    | ok pS =>
      rcases pS with ⟨sOut, walkedF⟩
      constructor
      · intro hpos
        have hp2 : parentsStep b cids0 = (cids0, b.parents) := by
          unfold parentsStep
          rw [if_pos hpos]
        constructor
        · simp only [walkChain, if_neg hblk, ho, hb, hM, hS, hp2]
        · simp only [walkLoop, walkChain, if_neg hblk, ho, hb, hM, hS, hp2]
      · intro hzero
        have hp2 : parentsStep b cids0 = (cids0 ++ b.parents, []) := by
          unfold parentsStep
          rw [if_neg (by rw [hzero]; exact lt_irrefl 0)]
        constructor
        · simp only [walkChain, if_neg hblk, ho, hb, hM, hS, hp2]
        · intro hp hseen hid hcod
          simp only [walkChain, if_neg hblk, ho, hb, hM, hS, hp2]
          have hmem : WalkEvent.cbOut p ∈
              (emitLoop (insert blk st.seen) ((cids0 ++ b.parents) ++ sOut)).2 := by
            refine emitLoop_emits _ _ p ?_ hseen hid hcod
            rw [List.mem_append, List.mem_append]
            exact Or.inl (Or.inr hp)
          simp only [List.mem_append]
          right
          exact hmem

/-- Witness for C9: a height-two block enqueues its parent at the frontier tail,
and the one-block genesis chain emits its declared parent through the output
filter; instantiated at the positive-height conjunct. -/
theorem c9_parent_rule_witness :
    (walkChain chainBsC stateBsA 2 0 true true 1 ⟨∅, ∅⟩ cBlk2).enqueue =
      hdrTwo.parents ∧
    walkLoop chainBsC stateBsA 2 0 true true 1 (3 + 1) ⟨∅, ∅⟩ [cBlk2] =
      ⟨(walkLoop chainBsC stateBsA 2 0 true true 1 3
          (walkChain chainBsC stateBsA 2 0 true true 1 ⟨∅, ∅⟩ cBlk2).st
          ([] ++ hdrTwo.parents)).st,
       (walkChain chainBsC stateBsA 2 0 true true 1 ⟨∅, ∅⟩ cBlk2).events ++
         (walkLoop chainBsC stateBsA 2 0 true true 1 3
           (walkChain chainBsC stateBsA 2 0 true true 1 ⟨∅, ∅⟩ cBlk2).st
           ([] ++ hdrTwo.parents)).events,
       (walkLoop chainBsC stateBsA 2 0 true true 1 3
         (walkChain chainBsC stateBsA 2 0 true true 1 ⟨∅, ∅⟩ cBlk2).st
         ([] ++ hdrTwo.parents)).err⟩ :=
  (c9_parent_rule chainBsC stateBsA 2 0 true true 1 ⟨∅, ∅⟩ cBlk2
      ⟨some hdrTwo, [], false⟩ hdrTwo 3 [] cBlk (by decide) (by decide)
      (by decide) (by decide)).1 (by decide)

/-- C10: For a walked block inside the inclusion window with receipts not
skipped (and a receipts root distinct from the block's message and state roots),
the walker records the receipts root only as a dedup-guarded single leaf
inclusion: no application of the recursive DAG expander — neither the message
one nor the state one — ever takes the receipts root as its root, while the
state root, in contrast, is handed to the expander. -/
theorem c10_receipts_single_leaf (chainBs stateBs : Blockstore) (sh irr : Int)
    (som smr : Bool) (fuel : Nat) (st : WalkState) (blk : ContentId)
    (o : StoredObj) (b : BlockHeader)
    (hblk : blk ∉ st.seen) (ho : chainBs blk = some o)
    (hb : o.headerDecode = some b)
    (hok : (walkChain chainBs stateBs sh irr som smr fuel st blk).err = none)
    (hwin : b.height = 0 ∨ b.height > sh - irr) (hsmr : smr = false)
    (hne1 : b.parentMessageReceipts ≠ b.messages)
    (hne2 : b.parentMessageReceipts ≠ b.parentStateRoot) :
    (WalkEvent.receiptLeaf b.parentMessageReceipts ∈
      (walkChain chainBs stateBs sh irr som smr fuel st blk).events) ∧
    (WalkEvent.expandState b.parentStateRoot ∈
      (walkChain chainBs stateBs sh irr som smr fuel st blk).events) ∧
    (∀ root, WalkEvent.expandMsgs root ∈
        (walkChain chainBs stateBs sh irr som smr fuel st blk).events →
      root ≠ b.parentMessageReceipts) ∧
    (∀ root, WalkEvent.expandState root ∈
        (walkChain chainBs stateBs sh irr som smr fuel st blk).events →
      root ≠ b.parentMessageReceipts) := by
  rcases hM : messagesStep chainBs sh irr som fuel st.walked b with ⟨evM, resM⟩
  have hMe : ∀ e ∈ evM, e = WalkEvent.expandMsgs b.messages := by
    have h0 := messagesStep_fst_mem chainBs sh irr som fuel st.walked b
    rw [hM] at h0
    exact h0
  cases resM with
  | error e =>
    simp only [walkChain, if_neg hblk, ho, hb, hM] at hok
    cases hok
  | ok pM =>
    rcases pM with ⟨cids0, walked1⟩
    rcases hS : stateStep stateBs sh irr smr fuel walked1 b with ⟨evS, resS⟩
    cases resS with
    | error e =>
      simp only [walkChain, if_neg hblk, ho, hb, hM, hS] at hok
      cases hok
    | ok pS =>
      rcases pS with ⟨sOut, walkedF⟩
      simp only [walkChain, if_neg hblk, ho, hb, hM, hS]
      rcases stateStep_ok_cases stateBs sh irr smr fuel walked1 b evS sOut walkedF hS
        with ⟨hcond, hcases⟩ | ⟨hcond, hevS⟩
      · have hevS : evS = [WalkEvent.expandState b.parentStateRoot,
            WalkEvent.receiptLeaf b.parentMessageReceipts] := by
          rcases hcases with ⟨_, h1⟩ | ⟨hsmr2, _⟩
          · exact h1
          · rw [hsmr] at hsmr2; cases hsmr2
        subst hevS
        refine ⟨by simp, by simp, ?_, ?_⟩
        · intro root hmem
          rcases List.mem_append.mp hmem with h1 | h1
          · rcases List.mem_append.mp h1 with h2 | h2
            · rcases List.mem_append.mp h2 with h3 | h3
              · simp at h3
              · have h4 := hMe _ h3
                injection h4 with h5
                subst h5
                exact fun hr => hne1 hr.symm
            · simp at h2
          · rcases emitLoop_events_shape _ _ _ h1 with ⟨d, h2, _⟩
            cases h2
        · intro root hmem
          rcases List.mem_append.mp hmem with h1 | h1
          · rcases List.mem_append.mp h1 with h2 | h2
            · rcases List.mem_append.mp h2 with h3 | h3
              · simp at h3
              · cases hMe _ h3
            · simp only [List.mem_cons, List.mem_singleton] at h2
              rcases h2 with h2 | h2
              · injection h2 with h5
                subst h5
                exact fun hr => hne2 hr.symm
              · simp at h2
          · rcases emitLoop_events_shape _ _ _ h1 with ⟨d, h2, _⟩
            cases h2
      · exfalso
        rw [(stateCond_iff b.height sh irr).mpr hwin] at hcond
        cases hcond

/-- Witness for C10 at genesis with receipts on and message expansion on: the
receipts root is recorded as a leaf, the state root is expanded, and the only
message-expander root is the message root, which differs from the receipts
root. -/
theorem c10_receipts_single_leaf_witness :
    (WalkEvent.receiptLeaf cRcpt ∈
      (walkChain chainBsB stateBsA 5 0 false false 1 ⟨∅, ∅⟩ cBlk).events) ∧
    (WalkEvent.expandState cState ∈
      (walkChain chainBsB stateBsA 5 0 false false 1 ⟨∅, ∅⟩ cBlk).events) ∧
    cMsg ≠ cRcpt := by
  have h := c10_receipts_single_leaf chainBsB stateBsA 5 0 false false 1 ⟨∅, ∅⟩
    cBlk ⟨some hdrGen, [], false⟩ hdrGen (by decide) (by decide) (by decide)
    (by decide) (Or.inl (by decide)) rfl (by decide) (by decide)
  exact ⟨h.1, h.2.1, fun he => h.2.2.1 cMsg (by decide) he⟩

/-- Counterexample to C6 as stated: a reachable identifier with the identity
multihash can appear in the emitted record stream. The dequeued block-id
emission at `snapshot.go:135` happens before the identity and codec filters of
`snapshot.go:193-215`, so a tip-set block id with an identity hash is passed to
the output callback. -/
theorem c6_identity_filter_counterexample :
    cIdent ∈ emittedCids
      (walkSnapshot chainBsE stateBsA ⟨[cIdent], 0⟩ 0 true true 2 1).events ∧
    cIdent.mhIdentity = true := by
  constructor
  · decide
  · rfl

/-- Filter invariant of one step for out-loop emissions: a `cbOut` callback only
carries ids that pass the identity and codec filters. -/
theorem walkChain_cbOut_filtered (chainBs stateBs : Blockstore) (sh irr : Int)
    (som smr : Bool) (fuel : Nat) (st : WalkState) (blk : ContentId) :
    ∀ c, WalkEvent.cbOut c ∈
        (walkChain chainBs stateBs sh irr som smr fuel st blk).events →
      c.mhIdentity = false ∧ codecOk c = true := by
  unfold walkChain
  split
  · intro c hc
    cases hc
  · split
    · intro c hc
      simp at hc
    · split
      · intro c hc
        simp at hc
      · rename_i o b hdec
        split
        · rename_i evM e heqM
          have hMe : ∀ e ∈ evM, e = WalkEvent.expandMsgs b.messages := by
            have h0 := messagesStep_fst_mem chainBs sh irr som fuel st.walked b
            rw [heqM] at h0
            exact h0
          intro c hc
          rcases List.mem_append.mp hc with h1 | h1
          · simp at h1
          · cases hMe _ h1
        · rename_i evM cids0 walked1 heqM
          have hMe : ∀ e ∈ evM, e = WalkEvent.expandMsgs b.messages := by
            have h0 := messagesStep_fst_mem chainBs sh irr som fuel st.walked b
            rw [heqM] at h0
            exact h0
          split
          · rename_i evS e heqS
            have hSe : ∀ e ∈ evS, e = WalkEvent.expandState b.parentStateRoot ∨
                e = WalkEvent.receiptLeaf b.parentMessageReceipts := by
              have h0 := stateStep_fst_mem stateBs sh irr smr fuel walked1 b
              rw [heqS] at h0
              exact h0
            intro c hc
            rcases List.mem_append.mp hc with h1 | h1
            · rcases List.mem_append.mp h1 with h2 | h2
              · simp at h2
              · cases hMe _ h2
            · rcases hSe _ h1 with h2 | h2 <;> cases h2
          · rename_i evS sOut walkedF heqS
            have hSe : ∀ e ∈ evS, e = WalkEvent.expandState b.parentStateRoot ∨
                e = WalkEvent.receiptLeaf b.parentMessageReceipts := by
              have h0 := stateStep_fst_mem stateBs sh irr smr fuel walked1 b
              rw [heqS] at h0
              exact h0
            intro c hc
            rcases List.mem_append.mp hc with h1 | h1
            · rcases List.mem_append.mp h1 with h2 | h2
              · rcases List.mem_append.mp h2 with h3 | h3
                · simp at h3
                · cases hMe _ h3
              · rcases hSe _ h2 with h3 | h3 <;> cases h3
            · rcases emitLoop_events_shape _ _ _ h1 with ⟨d, h2, _, _, h4, h5⟩
              injection h2 with h6
              subst h6
              exact ⟨h4, h5⟩

/-- Filter invariant of the driver loop for out-loop emissions. -/
theorem walkLoop_cbOut_filtered (chainBs stateBs : Blockstore) (sh irr : Int)
    (som smr : Bool) (rfuel : Nat) :
    ∀ (fuel : Nat) (st : WalkState) (q : List ContentId) (c : ContentId),
      WalkEvent.cbOut c ∈
          (walkLoop chainBs stateBs sh irr som smr rfuel fuel st q).events →
        c.mhIdentity = false ∧ codecOk c = true := by
  intro fuel
  induction fuel with
  | zero =>
    intro st q c hc
    cases q with
    | nil => cases hc
    | cons a r => cases hc
  | succ n ih =>
    intro st q c hc
    cases q with
    | nil => cases hc
    | cons blk rest =>
      simp only [walkLoop] at hc
      revert hc
      split
      · rename_i st1 enq evs e heq
        intro hc
        have h := walkChain_cbOut_filtered chainBs stateBs sh irr som smr rfuel st blk
        rw [heq] at h
        exact h c hc
      · rename_i st1 enq evs heq
        intro hc
        rcases List.mem_append.mp hc with h1 | h1
        · have h := walkChain_cbOut_filtered chainBs stateBs sh irr som smr rfuel st blk
          rw [heq] at h
          exact h c h1
        · exact ih st1 (rest ++ enq) c h1

/-- C6 amended: the emission filter of `snapshot.go:193-215` applies to every
id emitted from the out loop (message-DAG, genesis-parent, state-DAG and
receipts identifiers): such an id is never identity-hashed and always carries a
raw or dagcbor codec. Block-header ids dequeued from the frontier are emitted at
`snapshot.go:135` without passing this filter (see the counterexample). -/
theorem c6_out_filter_amended (chainBs stateBs : Blockstore) (ts : TipSet)
    (irr : Int) (som smr : Bool) (fuel rfuel : Nat) (c : ContentId)
    (hc : WalkEvent.cbOut c ∈
      (walkSnapshot chainBs stateBs ts irr som smr fuel rfuel).events) :
    c.mhIdentity = false ∧ codecOk c = true :=
  walkLoop_cbOut_filtered chainBs stateBs ts.height irr som smr rfuel fuel
    ⟨∅, ∅⟩ ts.cids c hc

/-- Witness for the amended C6: the genesis state root emitted through the
out-loop filter is not identity-hashed and has an allowed codec. -/
theorem c6_out_filter_amended_witness :
    cState.mhIdentity = false ∧ codecOk cState = true :=
  c6_out_filter_amended chainBsB stateBsA ⟨[cBlk], 0⟩ 0 true true 2 1 cState
    (by decide)

/-- C7: When scanning a structured object whose encoding is malformed after the
links already found (spec-modelled scanner, section 4.1): with at least one link
found before the malformed byte, `recurseLinks` does not fail on the scan — it
proceeds to fold exactly those links (the partial result is kept); with zero
links found, the decode error is reported as a malformed-object error. -/
theorem c7_partial_scan (bs : Blockstore) (fuel f : Nat)
    (walked : Finset ContentId) (root : ContentId) (o : StoredObj)
    (inAcc : List ContentId)
    (ho : bs root = some o) (hcodec : root.codec = Codec.dagCBOR)
    (hmal : o.scanMalformed = true) :
    (o.links = [] →
      recurseLinks bs fuel walked root inAcc = .error (.malformedObject root)) ∧
    (o.links ≠ [] →
      recurseLinks bs (f + 1) walked root inAcc =
        recurseChildren (recurseLinks bs f) walked o.links inAcc) := by
  constructor
  · intro hnil
    have hscan : scanForLinks o = none := by
      simp [scanForLinks, hmal, hnil]
    cases fuel with
    | zero => simp [recurseLinks, recurseLinksStep, hcodec, ho, hscan]
    | succ n => simp [recurseLinks, recurseLinksStep, hcodec, ho, hscan]
  · intro hne
    have hscan : scanForLinks o = some o.links := by
      simp [scanForLinks, hmal, List.isEmpty_iff, hne]
    simp [recurseLinks, recurseLinksStep, hcodec, ho, hscan]

/-- Witness for C7: a node whose scan found one link before the malformed byte
folds that single link, and a node whose scan found none errors out. -/
theorem c7_partial_scan_witness :
    (recurseLinks bsMal 1 ∅ cBlk [] = .error (.malformedObject cBlk)) ∧
    (recurseLinks bsMal 1 ∅ cNode [] =
      recurseChildren (recurseLinks bsMal 0) ∅ [cMsg] []) :=
  ⟨(c7_partial_scan bsMal 1 0 ∅ cBlk ⟨none, [], true⟩ [] (by decide) rfl
      rfl).1 rfl,
   (c7_partial_scan bsMal 1 0 ∅ cNode ⟨none, [cMsg], true⟩ [] (by decide) rfl
      rfl).2 (by decide)⟩

/-- Accumulator-framing of the children fold: running with accumulator `a` is
running with the empty accumulator and prepending `a`, provided the child
expander `g` frames the same way. -/
theorem recurseChildren_frame_of
    (g : Finset ContentId → ContentId → List ContentId →
      Except SnapErr (List ContentId × Finset ContentId))
    (hg : ∀ w r a, g w r a = (g w r []).map (fun p => (a ++ p.1, p.2))) :
    ∀ (links : List ContentId) (w : Finset ContentId) (a : List ContentId),
      recurseChildren g w links a =
        (recurseChildren g w links []).map (fun p => (a ++ p.1, p.2)) := by
  intro links
  induction links with
  | nil =>
    intro w a
    simp [recurseChildren, Except.map]
  | cons c rest ih =>
    intro w a
    by_cases hcw : c ∈ w
    · simp only [recurseChildren, if_pos hcw]
      exact ih w a
    · simp only [recurseChildren, if_neg hcw]
      rw [hg (insert c w) c (a ++ [c]), hg (insert c w) c ([] ++ [c])]
      cases hgc : g (insert c w) c [] with
      | error e => simp [Except.map]
      | ok p =>
        rcases p with ⟨in0, w1⟩
        simp only [Except.map]
        rw [ih w1 (a ++ [c] ++ in0), ih w1 ([] ++ [c] ++ in0)]
        cases hrc : recurseChildren g w1 rest [] with
        | error e => simp [Except.map]
        | ok q => simp [Except.map, List.append_assoc]

/-- Accumulator-framing of one expansion level. -/
theorem recurseLinksStep_frame (bs : Blockstore)
    (g : Finset ContentId → ContentId → List ContentId →
      Except SnapErr (List ContentId × Finset ContentId))
    (hg : ∀ w r a, g w r a = (g w r []).map (fun p => (a ++ p.1, p.2))) :
    ∀ w r a, recurseLinksStep bs g w r a =
      (recurseLinksStep bs g w r []).map (fun p => (a ++ p.1, p.2)) := by
  intro w r a
  unfold recurseLinksStep
  split
  · simp [Except.map]
  · cases hbr : bs r with
    | none => simp [Except.map]
    | some o =>
      cases hsc : scanForLinks o with
      | none => dsimp only; rw [hsc]; simp [Except.map]
      | some links => dsimp only; rw [hsc]; exact recurseChildren_frame_of g hg links w a

/-- Accumulator-framing of `recurseLinks`: the accumulator is only ever
prepended to, so the expansion of a root is independent of what was accumulated
before it. -/
theorem recurseLinks_frame (bs : Blockstore) :
    ∀ (fuel : Nat) (w : Finset ContentId) (r : ContentId) (a : List ContentId),
      recurseLinks bs fuel w r a =
        (recurseLinks bs fuel w r []).map (fun p => (a ++ p.1, p.2)) := by
  intro fuel
  induction fuel with
  | zero =>
    exact recurseLinksStep_frame bs _ (fun w r a => by simp [Except.map])
  | succ n ih =>
    exact recurseLinksStep_frame bs _ ih

/-- C8: Only dagcbor (structured) roots are fetched and scanned — a raw root is
returned as a leaf without any store access (the equation holds for every store,
including one that does not contain the root); the dedup-guarded expansion of a
fresh root lists the root first; and the fold over scanned links expands the
first fresh child completely (contiguously) before the remaining children, in
scan order — pre-order output. -/
theorem c8_preorder_expansion (bs : Blockstore) (fuel : Nat)
    (walked : Finset ContentId) (root c : ContentId)
    (inAcc rest : List ContentId) :
    (root.codec ≠ Codec.dagCBOR →
      recurseLinks bs fuel walked root inAcc = .ok (inAcc, walked)) ∧
    (root ∉ walked → ∀ res w, expandRoot bs fuel walked root = .ok (res, w) →
      ∃ t, res = root :: t) ∧
    (c ∉ walked →
      recurseChildren (recurseLinks bs fuel) walked (c :: rest) [] =
        (recurseLinks bs fuel (insert c walked) c [c]).bind (fun p =>
          (recurseChildren (recurseLinks bs fuel) p.2 rest []).map (fun q =>
            (p.1 ++ q.1, q.2)))) := by
  refine ⟨?_, ?_, ?_⟩
  · intro hcod
    cases fuel with
    | zero => simp [recurseLinks, recurseLinksStep, hcod]
    | succ n => simp [recurseLinks, recurseLinksStep, hcod]
  · intro hroot res w hok
    unfold expandRoot at hok
    rw [if_neg hroot] at hok
    rw [recurseLinks_frame bs fuel (insert root walked) root [root]] at hok
    cases hx : recurseLinks bs fuel (insert root walked) root [] with
    | error e => rw [hx] at hok; cases hok
    | ok p =>
      rw [hx] at hok
      simp only [Except.map] at hok
      injection hok with h1
      rw [Prod.mk.injEq] at h1
      exact ⟨p.1, h1.1.symm⟩
  · intro hc
    simp only [recurseChildren, if_neg hc, List.nil_append]
    cases hx : recurseLinks bs fuel (insert c walked) c [c] with
    | error e => simp [Except.bind]
    | ok p =>
      rcases p with ⟨in1, w1⟩
      simp only [Except.bind]
      exact recurseChildren_frame_of (recurseLinks bs fuel)
        (recurseLinks_frame bs fuel) rest w1 in1

/-- Witness for C8: a raw root is a leaf even over the empty store; the
expansion of the fresh raw root `cState` is `[cState]` (root first); and the
children fold of `[cState, cLeaf2]` expands `cState` before `cLeaf2`. -/
theorem c8_preorder_expansion_witness :
    (recurseLinks (fun _ => none) 1 ∅ cMsg [cState] = .ok ([cState], ∅)) ∧
    (∃ t, [cState] = cState :: t) ∧
    (recurseChildren (recurseLinks (fun _ => none) 1) ∅ [cState, cLeaf2] [] =
      (recurseLinks (fun _ => none) 1 (insert cState ∅) cState [cState]).bind
        (fun p =>
          (recurseChildren (recurseLinks (fun _ => none) 1) p.2 [cLeaf2] []).map
            (fun q => (p.1 ++ q.1, q.2)))) :=
  ⟨(c8_preorder_expansion (fun _ => none) 1 ∅ cMsg cState [cState] []).1
      (by decide),
   (c8_preorder_expansion (fun _ => none) 1 ∅ cState cState [] []).2.1
      (by decide) [cState] (insert cState ∅) (by rfl),
   (c8_preorder_expansion (fun _ => none) 1 ∅ cMsg cState [] [cLeaf2]).2.2
      (by decide)⟩

set_option maxRecDepth 100000 in
set_option maxHeartbeats 2000000 in
/-- Counterexample to C5 as stated: with 1002 records, one asynchronous batch
is dispatched (the 1001-record batch, which succeeds) and the one-record final
flush fails synchronously; `Import` returns the flush error immediately without
consuming any completion result from the throttle, so the dispatched in-flight
batch is not awaited — `drained = 0 < 1 = dispatched`. -/
theorem c5_drain_counterexample :
    (importSnapshot pmFlushFail arBig emptyStore).result =
      .error (.writeFailure 3) ∧
    (importSnapshot pmFlushFail arBig emptyStore).dispatched = 1 ∧
    (importSnapshot pmFlushFail arBig emptyStore).drained = 0 :=
  ⟨rfl, rfl, rfl⟩

/-- Write outcomes observed by the final drain: the returned write error is the
first error observed, every earlier observed outcome being a success. -/
theorem drainLoop_observed (roots : List ContentId) (w : Nat) :
    ∀ (n : Nat) (queue : List ThrottleEntry) (st : ImpStore)
      (disp dr : Nat) (obs : List (Option Nat)),
      (∀ x ∈ obs, x = none) →
      (drainLoop roots n queue st disp dr obs).result =
        .error (.writeFailure w) →
      ∃ pre, (drainLoop roots n queue st disp dr obs).observed =
          pre ++ [some w] ∧ ∀ x ∈ pre, x = none := by
  intro n
  induction n with
  | zero =>
    intro queue st disp dr obs hobs herr
    simp only [drainLoop] at herr
    rcases hlt : loadTipSet st roots with _ | t <;> rw [hlt] at herr <;>
      cases herr
  | succ m ih =>
    intro queue st disp dr obs hobs herr
    cases queue with
    | nil => exact ih [] st disp dr obs hobs herr
    | cons entry q1 =>
      cases entry with
      | token => exact ih q1 st disp dr obs hobs herr
      | done e =>
        cases e with
        | none =>
          refine ih q1 st disp (dr + 1) (obs ++ [none]) ?_ herr
          intro x hx
          rcases List.mem_append.mp hx with h | h
          · exact hobs x h
          · simpa using h
        | some e2 =>
          simp only [drainLoop] at herr ⊢
          injection herr with h1
          injection h1 with h2
          subst h2
          exact ⟨obs, rfl, hobs⟩

/-- Write outcomes observed by the record loop. -/
theorem importLoop_observed (putMany : PutManyFn) (roots : List ContentId)
    (w : Nat) :
    ∀ (recs buf : List (ContentId × StoredObj)) (queue : List ThrottleEntry)
      (st : ImpStore) (disp dr : Nat) (obs : List (Option Nat)),
      (∀ x ∈ obs, x = none) →
      (importLoop putMany roots recs buf queue st disp dr obs).result =
        .error (.writeFailure w) →
      ∃ pre, (importLoop putMany roots recs buf queue st disp dr obs).observed =
          pre ++ [some w] ∧ ∀ x ∈ pre, x = none := by
  intro recs
  induction recs with
  | nil =>
    intro buf queue st disp dr obs hobs herr
    simp only [importLoop] at herr ⊢
    by_cases hbe : buf.isEmpty
    · rw [if_pos hbe] at herr ⊢
      exact drainLoop_observed roots w 5 queue st disp dr obs hobs herr
    · rw [if_neg hbe] at herr ⊢
      rcases hput : putMany buf st with ⟨st1, res⟩
      rw [hput] at herr
      cases res with
      | none =>
        refine drainLoop_observed roots w 5 queue st1 disp dr (obs ++ [none]) ?_ herr
        intro x hx
        rcases List.mem_append.mp hx with h | h
        · exact hobs x h
        · simpa using h
      | some e =>
        injection herr with h1
        injection h1 with h2
        subst h2
        exact ⟨obs, rfl, hobs⟩
  | cons blk rest ih =>
    intro buf queue st disp dr obs hobs herr
    simp only [importLoop] at herr ⊢
    by_cases hlen : (buf ++ [blk]).length > 1000
    · rw [if_pos hlen] at herr ⊢
      cases queue with
      | nil =>
        rcases hput : putMany (buf ++ [blk]) st with ⟨st1, res⟩
        rw [hput] at herr
        exact ih [] [ThrottleEntry.done res] st1 (disp + 1) dr obs hobs herr
      | cons entry q1 =>
        cases entry with
        | token =>
          rcases hput : putMany (buf ++ [blk]) st with ⟨st1, res⟩
          rw [hput] at herr
          exact ih [] (q1 ++ [ThrottleEntry.done res]) st1 (disp + 1) dr obs
            hobs herr
        | done e =>
          cases e with
          | none =>
            rcases hput : putMany (buf ++ [blk]) st with ⟨st1, res⟩
            rw [hput] at herr
            refine ih [] (q1 ++ [ThrottleEntry.done res]) st1 (disp + 1) (dr + 1)
              (obs ++ [none]) ?_ herr
            intro x hx
            rcases List.mem_append.mp hx with h | h
            · exact hobs x h
            · simpa using h
          | some e2 =>
            injection herr with h1
            injection h1 with h2
            subst h2
            exact ⟨obs, rfl, hobs⟩
    · rw [if_neg hlen] at herr ⊢
      exact ih (buf ++ [blk]) queue st disp dr obs hobs herr

/-- C5 amended: when `Import` fails with a write error, the error returned is
the first write outcome it observed that was an error — every write outcome
observed before it was a success — but the importer does not drain the
remaining worker slots after observing that first error: it returns
immediately, and a dispatched batch may still be in flight (see the
counterexample). -/
theorem c5_first_error_amended (putMany : PutManyFn) (ar : CarArchive)
    (st : ImpStore) (w : Nat)
    (herr : (importSnapshot putMany ar st).result = .error (.writeFailure w)) :
    ∃ pre, (importSnapshot putMany ar st).observed = pre ++ [some w] ∧
      ∀ x ∈ pre, x = none :=
  importLoop_observed putMany ar.roots w ar.records []
    (List.replicate 5 ThrottleEntry.token) st 0 0 [] (by simp) herr

/-- Witness for the amended C5: a one-record archive whose only write (the
final flush) fails with code seven; the observed outcome list is exactly
`[some 7]`. -/
theorem c5_first_error_amended_witness :
    ∃ pre, (importSnapshot pmAlwaysFail arOne emptyStore).observed =
        pre ++ [some 7] ∧ ∀ x ∈ pre, x = none :=
  c5_first_error_amended pmAlwaysFail arOne emptyStore 7 rfl

/-- A successful export means the walk succeeded, the archive's declared roots
are the tip-set's block ids, and the records are the emitted ids paired with
their union-store bytes. -/
theorem exportSnapshot_ok (chainBs stateBs : Blockstore) (ts : TipSet)
    (irr : Int) (som : Bool) (fuel rfuel : Nat) (ar : CarArchive)
    (hexp : exportSnapshot chainBs stateBs ts irr som fuel rfuel = .ok ar) :
    (walkSnapshot chainBs stateBs ts irr som true fuel rfuel).err = none ∧
    ar.roots = ts.cids ∧
    exportRecords (unionGet stateBs chainBs)
      (emittedCids (walkSnapshot chainBs stateBs ts irr som true fuel rfuel).events) =
      .ok ar.records := by
  unfold exportSnapshot at hexp
  rcases herr : (walkSnapshot chainBs stateBs ts irr som true fuel rfuel).err with
    _ | e
  · rw [herr] at hexp
    rcases hrec : exportRecords (unionGet stateBs chainBs)
        (emittedCids (walkSnapshot chainBs stateBs ts irr som true fuel rfuel).events)
      with e2 | rs
    · rw [hrec] at hexp
      cases hexp
    · rw [hrec] at hexp
      injection hexp with h1
      rw [← h1]
      exact ⟨rfl, rfl, rfl⟩
  · rw [herr] at hexp
    cases hexp

/-- Characterization of a successful record fetch pass: every record carries
the store's bytes for its id, every requested id has a record, and the record
keys are exactly the requested ids in order. -/
theorem exportRecords_ok_forall (u : ContentId → Option StoredObj) :
    ∀ (cs : List ContentId) (rs : List (ContentId × StoredObj)),
      exportRecords u cs = .ok rs →
      (∀ pr ∈ rs, u pr.1 = some pr.2) ∧
      (∀ c ∈ cs, ∃ o, (c, o) ∈ rs ∧ u c = some o) := by
  intro cs
  induction cs with
  | nil =>
    intro rs h
    simp only [exportRecords] at h
    injection h with h1
    subst h1
    exact ⟨by simp, by simp⟩
  | cons c rest ih =>
    intro rs h
    simp only [exportRecords] at h
    rcases hu : u c with _ | o
    · rw [hu] at h
      cases h
    · rw [hu] at h
      rcases hrec : exportRecords u rest with e | rs0
      · rw [hrec] at h
        cases h
      · rw [hrec] at h
        injection h with h1
        subst h1
        rcases ih rs0 hrec with ⟨ih1, ih2⟩
        refine ⟨?_, ?_⟩
        · intro pr hpr
          rcases List.mem_cons.mp hpr with h2 | h2
          · subst h2
            exact hu
          · exact ih1 pr h2
        · intro d hd
          rcases List.mem_cons.mp hd with h2 | h2
          · subst h2
            exact ⟨o, List.mem_cons_self _ _, hu⟩
          · rcases ih2 d h2 with ⟨o2, h3, h4⟩
            exact ⟨o2, List.mem_cons_of_mem _ h3, h4⟩

/-- With a queue of tokens and successful completions, the final drain reaches
the root resolution with the store unchanged. -/
theorem drainLoop_good (roots : List ContentId) :
    ∀ (n : Nat) (queue : List ThrottleEntry) (st : ImpStore) (disp dr : Nat)
      (obs : List (Option Nat)),
      (∀ e ∈ queue, e = ThrottleEntry.token ∨ e = ThrottleEntry.done none) →
      (drainLoop roots n queue st disp dr obs).result =
        (match loadTipSet st roots with
         | none => Except.error ImportErr.incompleteArchive
         | some t => Except.ok t) := by
  intro n
  induction n with
  | zero =>
    intro queue st disp dr obs hq
    simp only [drainLoop]
    rcases hlt : loadTipSet st roots with _ | t <;> simp
  | succ m ih =>
    intro queue st disp dr obs hq
    cases queue with
    | nil => exact ih [] st disp dr obs (by simp)
    | cons entry q1 =>
      rcases hq entry (List.mem_cons_self _ _) with h1 | h1 <;> subst h1
      · exact ih q1 st disp dr obs
          (fun e he => hq e (List.mem_cons_of_mem _ he))
      · exact ih q1 st disp (dr + 1) (obs ++ [none])
          (fun e he => hq e (List.mem_cons_of_mem _ he))

/-- With the always-succeeding `PutMany`, the import loop writes every buffered
and remaining record into the store (batch boundaries do not matter) and then
resolves the declared roots against that final store. -/
theorem importLoop_good (roots : List ContentId) :
    ∀ (recs buf : List (ContentId × StoredObj)) (queue : List ThrottleEntry)
      (st : ImpStore) (disp dr : Nat) (obs : List (Option Nat)),
      (∀ e ∈ queue, e = ThrottleEntry.token ∨ e = ThrottleEntry.done none) →
      (importLoop goodPutMany roots recs buf queue st disp dr obs).result =
        (match loadTipSet (storePutMany st (buf ++ recs)) roots with
         | none => Except.error ImportErr.incompleteArchive
         | some t => Except.ok t) := by
  intro recs
  induction recs with
  | nil =>
    intro buf queue st disp dr obs hq
    simp only [importLoop]
    by_cases hbe : buf.isEmpty
    · rw [if_pos hbe]
      have hb : buf = [] := List.isEmpty_iff.mp hbe
      subst hb
      exact drainLoop_good roots 5 queue st disp dr obs hq
    · rw [if_neg hbe]
      show (drainLoop roots 5 queue (storePutMany st buf) disp dr
          (obs ++ [none])).result = _
      rw [drainLoop_good roots 5 queue (storePutMany st buf) disp dr
        (obs ++ [none]) hq]
      rw [List.append_nil]
  | cons blk rest ih =>
    intro buf queue st disp dr obs hq
    simp only [importLoop]
    by_cases hlen : (buf ++ [blk]).length > 1000
    · rw [if_pos hlen]
      have hassoc : storePutMany (storePutMany st (buf ++ [blk])) rest =
          storePutMany st (buf ++ blk :: rest) := by
        rw [show buf ++ blk :: rest = (buf ++ [blk]) ++ rest by simp]
        exact (List.foldl_append _ _ _ _).symm
      cases queue with
      | nil =>
        show (importLoop goodPutMany roots rest []
            [ThrottleEntry.done none] (storePutMany st (buf ++ [blk]))
            (disp + 1) dr obs).result = _
        rw [ih [] [ThrottleEntry.done none] (storePutMany st (buf ++ [blk]))
          (disp + 1) dr obs (by simp)]
        rw [List.nil_append, hassoc]
      | cons entry q1 =>
        rcases hq entry (List.mem_cons_self _ _) with h1 | h1 <;> subst h1
        · show (importLoop goodPutMany roots rest []
              (q1 ++ [ThrottleEntry.done none]) (storePutMany st (buf ++ [blk]))
              (disp + 1) dr obs).result = _
          rw [ih [] (q1 ++ [ThrottleEntry.done none])
            (storePutMany st (buf ++ [blk])) (disp + 1) dr obs ?_]
          · rw [List.nil_append, hassoc]
          · intro e he
            rcases List.mem_append.mp he with h2 | h2
            · exact hq e (List.mem_cons_of_mem _ h2)
            · simp at h2
              subst h2
              exact Or.inr rfl
        · show (importLoop goodPutMany roots rest []
              (q1 ++ [ThrottleEntry.done none]) (storePutMany st (buf ++ [blk]))
              (disp + 1) (dr + 1) (obs ++ [none])).result = _
          rw [ih [] (q1 ++ [ThrottleEntry.done none])
            (storePutMany st (buf ++ [blk])) (disp + 1) (dr + 1)
            (obs ++ [none]) ?_]
          · rw [List.nil_append, hassoc]
          · intro e he
            rcases List.mem_append.mp he with h2 | h2
            · exact hq e (List.mem_cons_of_mem _ h2)
            · simp at h2
              subst h2
              exact Or.inr rfl
    · rw [if_neg hlen]
      rw [ih (buf ++ [blk]) queue st disp dr obs hq]
      rw [show (buf ++ [blk]) ++ rest = buf ++ blk :: rest by simp]

/-- Lookup preservation: once the store maps `c` to `o`, inserting records that
all agree on key `c` keeps the binding. -/
theorem storePutMany_lookup_keep (c : ContentId) (o : StoredObj) :
    ∀ (rs : List (ContentId × StoredObj)) (st : ImpStore),
      (∀ pr ∈ rs, pr.1 = c → pr.2 = o) → st c = some o →
      storePutMany st rs c = some o := by
  intro rs
  induction rs with
  | nil => intro st _ hst; exact hst
  | cons r rest ih =>
    intro st huniq hst
    show storePutMany (putRecord st r) rest c = some o
    refine ih (putRecord st r) (fun pr hpr h => huniq pr (List.mem_cons_of_mem _ hpr) h) ?_
    unfold putRecord
    by_cases hcr : c = r.1
    · rw [if_pos hcr]
      rw [huniq r (List.mem_cons_self _ _) hcr.symm]
    · rw [if_neg hcr]
      exact hst

/-- Lookup after a bulk insert: a record present in the batch whose key is
carried only with one value ends up bound in the store. -/
theorem storePutMany_lookup (c : ContentId) (o : StoredObj) :
    ∀ (rs : List (ContentId × StoredObj)) (st : ImpStore),
      (c, o) ∈ rs → (∀ pr ∈ rs, pr.1 = c → pr.2 = o) →
      storePutMany st rs c = some o := by
  intro rs
  induction rs with
  | nil => intro st h; cases h
  | cons r rest ih =>
    intro st hmem huniq
    rcases List.mem_cons.mp hmem with h1 | h1
    · show storePutMany (putRecord st r) rest c = some o
      refine storePutMany_lookup_keep c o rest (putRecord st r)
        (fun pr hpr h => huniq pr (List.mem_cons_of_mem _ hpr) h) ?_
      unfold putRecord
      rw [← h1]
      simp
    · exact ih (putRecord st r) h1
        (fun pr hpr h => huniq pr (List.mem_cons_of_mem _ hpr) h)

/-- The union store agrees with the chain store wherever the two backing stores
are consistent. -/
theorem unionGet_of_chain (stateBs chainBs : Blockstore) (c : ContentId)
    (o : StoredObj)
    (hcons : ∀ d o₁ o₂, stateBs d = some o₁ → chainBs d = some o₂ → o₁ = o₂)
    (ho : chainBs c = some o) :
    unionGet stateBs chainBs c = some o := by
  unfold unionGet
  cases hst : stateBs c with
  | none => exact ho
  | some o2 => rw [hcons c o2 o hst ho]

/-- Counterexample to C1 as stated: a tip-set whose second block id has an
identity multihash. The first (genesis) block lists it among its parents, so the
out-loop marks it seen and filters it (no record); when it is then dequeued it
is skipped as already seen. Export succeeds, but the archive lacks a record for
that declared root, so Import into an empty store fails to resolve the roots. -/
theorem c1_roundtrip_counterexample :
    exportSnapshot chainBsA stateBsA ⟨[cBlk, cIdent], 0⟩ 0 true 5 5 =
      .ok ⟨[cBlk, cIdent],
           [(cBlk, ⟨some hdrGenIdentParent, [], false⟩),
            (cState, ⟨none, [], false⟩)]⟩ ∧
    (importSnapshot goodPutMany
        ⟨[cBlk, cIdent],
         [(cBlk, ⟨some hdrGenIdentParent, [], false⟩),
          (cState, ⟨none, [], false⟩)]⟩ emptyStore).result =
      .error .incompleteArchive :=
  ⟨rfl, rfl⟩

/-- C1 amended: for a tip-set whose block ids are non-identity dagcbor ids whose
headers are present and decodable in the chain store, and with the state and
chain stores consistent on shared ids (content addressing), a successful
`Export(ts, ...)` imported into an empty store succeeds, and the tip-set
resolved from the archive's declared roots has exactly the block ids of `ts`
(the resolved list is `ts.cids` itself). -/
theorem c1_roundtrip_amended (chainBs stateBs : Blockstore) (ts : TipSet)
    (irr : Int) (som : Bool) (fuel rfuel : Nat) (ar : CarArchive)
    (hroots : ∀ r ∈ ts.cids, r.mhIdentity = false ∧ r.codec = Codec.dagCBOR ∧
      ∃ o, chainBs r = some o ∧ o.headerDecode.isSome = true)
    (hcons : ∀ d o₁ o₂, stateBs d = some o₁ → chainBs d = some o₂ → o₁ = o₂)
    (hexp : exportSnapshot chainBs stateBs ts irr som fuel rfuel = .ok ar) :
    (importSnapshot goodPutMany ar emptyStore).result = .ok ts.cids := by
  obtain ⟨hwerr, hroots_eq, hrecs⟩ :=
    exportSnapshot_ok chainBs stateBs ts irr som fuel rfuel ar hexp
  obtain ⟨hrec1, hrec2⟩ :=
    exportRecords_ok_forall (unionGet stateBs chainBs) _ ar.records hrecs
  show (importLoop goodPutMany ar.roots ar.records []
      (List.replicate 5 ThrottleEntry.token) emptyStore 0 0 []).result = _
  rw [importLoop_good ar.roots ar.records [] _ emptyStore 0 0 [] (by simp)]
  rw [List.nil_append]
  have hall : ar.roots.all (fun r =>
      match storePutMany emptyStore ar.records r with
      | some o => o.headerDecode.isSome
      | none => false) = true := by
    rw [List.all_eq_true]
    intro r hr
    rw [hroots_eq] at hr
    obtain ⟨hid, hcod, o, ho, hdec⟩ := hroots r hr
    have hseen : r ∈ (walkLoop chainBs stateBs ts.height irr som true rfuel
        fuel ⟨∅, ∅⟩ ts.cids).st.seen :=
      walkLoop_mem_seen chainBs stateBs ts.height irr som true rfuel fuel
        ⟨∅, ∅⟩ ts.cids hwerr r hr
    rcases walkLoop_covered chainBs stateBs ts.height irr som true rfuel fuel
        ⟨∅, ∅⟩ ts.cids r hseen with h | h | h | h
    · exact absurd h (Finset.not_mem_empty r)
    · rw [hid] at h
      cases h
    · rw [show codecOk r = true by simp [codecOk, hcod]] at h
      cases h
    · obtain ⟨o2, hmem, hu⟩ := hrec2 r h
      have huo : unionGet stateBs chainBs r = some o :=
        unionGet_of_chain stateBs chainBs r o hcons ho
      have ho2 : o2 = o := by
        rw [hu] at huo
        injection huo
      subst ho2
      have hlk : storePutMany emptyStore ar.records r = some o2 := by
        refine storePutMany_lookup r o2 ar.records emptyStore hmem ?_
        intro pr hpr hpr1
        have h1 := hrec1 pr hpr
        rw [hpr1, hu] at h1
        injection h1 with h2
        exact h2.symm
      rw [hlk]
      exact hdec
  have hload : loadTipSet (storePutMany emptyStore ar.records) ar.roots =
      some ar.roots := by
    unfold loadTipSet
    rw [if_pos hall]
  rw [hload, hroots_eq]

/-- Witness for the amended C1: exporting the one-block genesis chain and
importing the archive into the empty store resolves back to the tip-set's
single block id. -/
theorem c1_roundtrip_amended_witness :
    (importSnapshot goodPutMany
        ⟨[cBlk], [(cBlk, ⟨some hdrGen, [], false⟩), (cState, ⟨none, [], false⟩)]⟩
        emptyStore).result = .ok [cBlk] :=
  c1_roundtrip_amended chainBsB stateBsA ⟨[cBlk], 0⟩ 0 true 2 1
    ⟨[cBlk], [(cBlk, ⟨some hdrGen, [], false⟩), (cState, ⟨none, [], false⟩)]⟩
    (by
      intro r hr
      rw [List.mem_singleton] at hr
      subst hr
      exact ⟨rfl, rfl, ⟨some hdrGen, [], false⟩, by decide, rfl⟩)
    (by
      intro d o₁ o₂ h1 h2
      by_cases hd : d = cState
      · subst hd
        rw [show chainBsB cState = none from rfl] at h2
        cases h2
      · rw [show stateBsA d = if d = cState then some ⟨none, [], false⟩ else none
          from rfl, if_neg hd] at h1
        cases h1)
    rfl

end Snapshot
